import Mathlib

/-!
Verification of the Ricochet Robot solver (`ricochet.py`).

The Python module is shallowly embedded: the per-cell bitmask grid becomes a
`List Nat`, board positions are `Int` (the code encodes "off board" as `-1`),
Python's `x & ~m` on non-negative ints becomes `andNot`, the recursive slide
resolver `Board.trace` becomes a fuelled function whose exceptional outcomes
(`BounceLoopException`, an unhandled `KeyError` from a `FLIPDIRS` lookup, or
fuel exhaustion) are explicit constructors, and the mutable depth-first search
`Board.search_rec` becomes a state-passing function that is structurally
recursive on the move budget, exactly mirroring the recursion
`search_rec(remaining_moves - 1)` of the source.
-/

set_option maxRecDepth 8000
set_option synthInstance.maxSize 2000
set_option synthInstance.maxHeartbeats 1000000

/-- Marker bit `NORTH = 1 << 0`. -/
def NORTH : Nat := 1

/-- Marker bit `EAST = 1 << 1`. -/
def EAST : Nat := 2

/-- Marker bit `SOUTH = 1 << 2`. -/
def SOUTH : Nat := 4

/-- Marker bit `WEST = 1 << 3`. -/
def WEST : Nat := 8

/-- Marker bit `ROBOT = 1 << 4`. -/
def ROBOT : Nat := 16

/-- Marker bit `GOAL = 1 << 5`. -/
def GOAL : Nat := 32

/-- Marker bit `BLOCK = 1 << 6`. -/
def BLOCK : Nat := 64

/-- Marker bit `BOUNCER = 1 << 7`. -/
def BOUNCER : Nat := 128

/-- `DIRECTIONS = (NORTH, EAST, SOUTH, WEST)`. -/
def DIRECTIONS : List Nat := [NORTH, EAST, SOUTH, WEST]

/-- The dict `FLIPDIRS = {NORTH: SOUTH, EAST: WEST, SOUTH: NORTH, WEST: EAST}`.
A lookup at any other key raises `KeyError` in Python, hence `Option`. -/
def FLIPDIRS (d : Nat) : Option Nat :=
  if d = NORTH then some SOUTH
  else if d = EAST then some WEST
  else if d = SOUTH then some NORTH
  else if d = WEST then some EAST
  else none

/-- Python `x & ~m` for non-negative `x`, `m`: clear the bits of `m` in `x`. -/
def andNot (x m : Nat) : Nat := x ^^^ (x &&& m)

/-- The four legal bouncer orientation values produced by
`Bouncer.from_string`: `FLIPDIRS[c1] | FLIPDIRS[c2]` for the diagonal strings
`ne`, `se`, `sw`, `nw`, i.e. `SOUTH|WEST`, `NORTH|WEST`, `NORTH|EAST`,
`SOUTH|EAST`. -/
def BOUNCER_PAIRS : List Nat := [12, 9, 3, 6]

/-- The immutable data of a `Board`: dimensions, search window, bounce limit
and the goal's cell index (the goal is immutable after placement). -/
structure Board where
  width : Nat
  height : Nat
  min_moves : Nat
  max_moves : Nat
  max_bounces : Nat
  goal_pos : Int
  deriving DecidableEq, Repr

/-- `Board.neighbour`: the adjacent cell index in a direction, `-1` when the
step leaves the board.  The source returns `None` for a direction that is not
one of the four marker bits; that path is unreachable in the program (every
caller passes a direction from `DIRECTIONS`), and the embedding returns `-1`
there. -/
def neighbour (b : Board) (position : Int) (direction : Nat) : Int :=
  if direction = NORTH then
    if position - b.width ≥ 0 then position - b.width else -1
  else if direction = EAST then
    if (position + 1) % b.width ≠ 0 then position + 1 else -1
  else if direction = SOUTH then
    if position + b.width < b.width * b.height then position + b.width else -1
  else if direction = WEST then
    if position % b.width ≠ 0 then position - 1 else -1
  else -1

/-- `Board.check_xy`: is the 1-based coordinate pair on the board? -/
def check_xy (b : Board) (x y : Int) : Bool :=
  1 ≤ x && x ≤ (b.width : Int) && 1 ≤ y && y ≤ (b.height : Int)

/-- `Board.xy_to_position`: row-major cell index of a 1-based coordinate. -/
def xy_to_position (b : Board) (x y : Int) : Int :=
  (y - 1) * b.width + x - 1

/-- `Board.position_to_xy`.  Python `%` and `//` are floor-division based,
which is `Int.fmod` / `Int.fdiv`; on the index `-1` this yields the pair
`(width, 0)`. -/
def position_to_xy (b : Board) (position : Int) : Int × Int :=
  (Int.fmod position b.width + 1, Int.fdiv position b.width + 1)

/-- Read the bitmask of the cell at `position` (list `self.positions`). -/
def cellGet (cells : List Nat) (position : Int) : Nat :=
  cells.getD position.toNat 0

/-- `Board.add`: `positions[p] |= marker`. -/
def board_add (cells : List Nat) (position : Int) (marker : Nat) : List Nat :=
  cells.set position.toNat (cellGet cells position ||| marker)

/-- `Board.remove`: `positions[p] &= ~marker`. -/
def board_remove (cells : List Nat) (position : Int) (marker : Nat) : List Nat :=
  cells.set position.toNat (andNot (cellGet cells position) marker)

/-- `Board.has`: `positions[p] & mask` (an `int`, used both as a truth value
and, in `trace`, as a dictionary key). -/
def board_has (cells : List Nat) (position : Int) (mask : Nat) : Nat :=
  cellGet cells position &&& mask

/-- Outcome of `Board.trace`: normal return, `BounceLoopException`, the
`KeyError` a bad `FLIPDIRS` lookup raises, or exhaustion of the
embedding's fuel (unreachable when enough fuel is supplied). -/
inductive TraceResult where
  | ok (position : Int)
  | bounceLoop
  | keyError
  | outOfFuel
  deriving DecidableEq, Repr

/-- `Board.trace`: slide from `position` in `direction`, stopping before
blockers (`ROBOT | BLOCK | FLIPDIRS[direction]`), redirecting at bouncers and
raising `BounceLoopException` past `max_bounces` redirections.  Both a plain
step of the `while` loop and a bouncer redirection consume one unit of fuel. -/
def trace (b : Board) (cells : List Nat) :
    Nat → Int → Nat → Nat → TraceResult
  | 0, _, _, _ => TraceResult.outOfFuel
  | fuel + 1, position, direction, bounces =>
    match FLIPDIRS direction with
    | none => TraceResult.keyError
    | some flipped =>
      let blocker := ROBOT ||| BLOCK ||| flipped
      let next_pos := neighbour b position direction
      if next_pos < 0 ∨ board_has cells next_pos blocker ≠ 0 then
        TraceResult.ok position
      else if board_has cells next_pos BOUNCER ≠ 0 then
        if bounces ≥ b.max_bounces then TraceResult.bounceLoop
        else
          match FLIPDIRS (board_has cells next_pos (andNot 255 (BOUNCER ||| direction))) with
          | none => TraceResult.keyError
          | some next_dir => trace b cells fuel next_pos next_dir (bounces + 1)
      else trace b cells fuel next_pos direction bounces

/-- Fuel that suffices for any `trace` call on a board of this size (proved
below): one unit per straight step, bounded per bounce level by the cell
count, times the number of bounce levels. -/
def trace_fuel (b : Board) : Nat :=
  (b.max_bounces + 1) * (b.width * b.height + 1) + b.width * b.height + 1

/-- A `Move` value: the robot (by its index in the board's robot list), the
direction attempted, and the start and stop cell indices. -/
structure Move where
  robot : Nat
  direction : Nat
  start_position : Int
  stop_position : Int
  deriving DecidableEq, Repr

/-- `Board.possible_moves`: for every robot and direction, trace the slide
and yield a `Move` when it goes anywhere; a slide that raises
`BounceLoopException` is silently discarded.  (`keyError` would crash the
Python process and `outOfFuel` never occurs; both yield no move here.) -/
def possible_moves (b : Board) (cells : List Nat) (robots : List Int) : List Move :=
  (List.range robots.length).flatMap fun i =>
    DIRECTIONS.filterMap fun direction =>
      match trace b cells (trace_fuel b) (robots.getD i 0) direction 0 with
      | TraceResult.ok stop_position =>
        if stop_position ≠ robots.getD i 0 then
          some ⟨i, direction, robots.getD i 0, stop_position⟩
        else none
      | _ => none

/-- New cell array after `Robot.move(position)`: remove the `ROBOT` marker at
the robot's current cell, add it at the new cell. -/
def move_cells (cells : List Nat) (robots : List Int) (i : Nat) (position : Int) : List Nat :=
  board_add (board_remove cells (robots.getD i 0) ROBOT) position ROBOT

/-- New robot-position list after `Robot.move(position)`. -/
def move_robots (robots : List Int) (i : Nat) (position : Int) : List Int :=
  robots.set i position

/-- The mutable state of the search: the cell bitmasks, every robot's
position, the move path `self.moves` and the despair table
`self.states_of_despair` (a dict, embedded as an association list). -/
structure SearchState where
  cells : List Nat
  robots : List Int
  moves : List Move
  despair : List (List Int × Nat)
  deriving DecidableEq, Repr

/-- `Board.robot_state`: the sorted tuple of robot positions, the despair
table's key. -/
def robot_state (robots : List Int) : List Int :=
  List.insertionSort (· ≤ ·) robots

/-- `states_of_despair.get(key, 0)`. -/
def dGet (d : List (List Int × Nat)) (key : List Int) : Nat :=
  match d with
  | [] => 0
  | (k, v) :: rest => if k = key then v else dGet rest key

/-- `states_of_despair[key] = value`. -/
def dSet (d : List (List Int × Nat)) (key : List Int) (value : Nat) :
    List (List Int × Nat) :=
  match d with
  | [] => [(key, value)]
  | (k, v) :: rest =>
    if k = key then (key, value) :: rest else (k, v) :: dSet rest key value

/-- `Robot.move` acting on the search state. -/
def robot_move (st : SearchState) (i : Nat) (position : Int) : SearchState :=
  { st with cells := move_cells st.cells st.robots i position,
            robots := move_robots st.robots i position }

/-- `Move.execute`: move the robot to the stop position. -/
def Move.execute (m : Move) (st : SearchState) : SearchState :=
  robot_move st m.robot m.stop_position

/-- `Move.undo`: move the robot back to the start position. -/
def Move.undo (m : Move) (st : SearchState) : SearchState :=
  robot_move st m.robot m.start_position

/-- `self.moves.append(move)`. -/
def pushMove (m : Move) (st : SearchState) : SearchState :=
  { st with moves := st.moves ++ [m] }

/-- `self.moves.pop()`. -/
def popMove (st : SearchState) : SearchState :=
  { st with moves := st.moves.dropLast }

/-- The goal test `self.has(self.goal.position, ROBOT)` as a Bool. -/
def goal_reached (b : Board) (cells : List Nat) : Bool :=
  board_has cells b.goal_pos ROBOT != 0

/-- The `for move in self.possible_moves()` loop body of `Board.search_rec`,
processing the remaining candidate moves: execute, append, test the goal,
recurse through `sub` (which is `search_rec` at budget `remaining - 1`;
entered only when `deep`, i.e. `remaining_moves > 1`), pop and undo on
failure; when the loop is exhausted, record despair at the entry key and
report failure. -/
def search_go (b : Board) (sub : SearchState → Bool × SearchState) (deep : Bool)
    (key : List Int) (remaining : Nat) :
    List Move → SearchState → Bool × SearchState
  | [], st => (false, { st with despair := dSet st.despair key remaining })
  | m :: rest, st =>
    let st1 := pushMove m (Move.execute m st)
    if goal_reached b st1.cells then (true, st1)
    else if deep then
      match sub st1 with
      | (true, st2) => (true, st2)
      | (false, st2) =>
        search_go b sub deep key remaining rest (Move.undo m (popMove st2))
    else search_go b sub deep key remaining rest (Move.undo m (popMove st1))

/-- `Board.search_rec`: prune when the despair table already records this
configuration at a depth `≥ remaining_moves`, otherwise run the move loop.
Structural recursion on the budget mirrors `search_rec(remaining_moves - 1)`.
At budget `0` the guard `tried_moves < 0` is false, so the call returns
failure untouched. -/
def search_rec (b : Board) : Nat → SearchState → Bool × SearchState
  | 0, st => (false, st)
  | remaining + 1, st =>
    let key := robot_state st.robots
    let tried := dGet st.despair key
    if tried < remaining + 1 then
      search_go b (search_rec b remaining) (decide (1 < remaining + 1)) key
        (remaining + 1) (possible_moves b st.cells st.robots) st
    else (false, st)

/-- The budget loop of `Board.search`: `range(min_moves, max_moves + 1)`,
returning the successful budget with the reported move list, threading the
state (the despair table persists across budgets). -/
def search_loop (b : Board) : List Nat → SearchState →
    Option (Nat × List Move) × SearchState
  | [], st => (none, st)
  | r :: rest, st =>
    match search_rec b r st with
    | (true, st1) => (some (r, st1.moves), st1)
    | (false, st1) => search_loop b rest st1

/-- `Board.search`: reset `self.moves` and `self.states_of_despair`, then try
each budget in turn. -/
def search (b : Board) (st : SearchState) : Option (Nat × List Move) × SearchState :=
  search_loop b (List.range' b.min_moves (b.max_moves + 1 - b.min_moves))
    { st with moves := [], despair := [] }

/-- Winnability of a configuration in at most `n` moves, phrased over the
moves the program itself generates: no zero-move win (the code only tests the
goal after executing a move), and a win in `n + 1` moves is a generated move
that either lands a robot on the goal or leaves a configuration winnable in
`n` moves. -/
def winsIn (b : Board) (cells : List Nat) (robots : List Int) : Nat → Bool
  | 0 => false
  | n + 1 =>
    (possible_moves b cells robots).any fun m =>
      goal_reached b (move_cells cells robots m.robot m.stop_position) ||
        winsIn b (move_cells cells robots m.robot m.stop_position)
          (move_robots robots m.robot m.stop_position) n

/-- `trace` instrumented with the number of redirections actually performed;
its first component agrees with `trace` (proved below). -/
def traceN (b : Board) (cells : List Nat) :
    Nat → Int → Nat → Nat → TraceResult × Nat
  | 0, _, _, _ => (TraceResult.outOfFuel, 0)
  | fuel + 1, position, direction, bounces =>
    match FLIPDIRS direction with
    | none => (TraceResult.keyError, 0)
    | some flipped =>
      let blocker := ROBOT ||| BLOCK ||| flipped
      let next_pos := neighbour b position direction
      if next_pos < 0 ∨ board_has cells next_pos blocker ≠ 0 then
        (TraceResult.ok position, 0)
      else if board_has cells next_pos BOUNCER ≠ 0 then
        if bounces ≥ b.max_bounces then (TraceResult.bounceLoop, 0)
        else
          match FLIPDIRS (board_has cells next_pos (andNot 255 (BOUNCER ||| direction))) with
          | none => (TraceResult.keyError, 0)
          | some next_dir =>
            let r := traceN b cells fuel next_pos next_dir (bounces + 1)
            (r.1, r.2 + 1)
      else traceN b cells fuel next_pos direction bounces

/-- `Placeable.place`: validate the coordinate (raising the bad-position
`UsageError` otherwise), convert it to a cell index and OR the marker into
the cell store.  The error value carries the offending coordinate and the
cell store as mutated so far, since the Python exception leaves prior
mutations in place. -/
def placeable_place (b : Board) (cells : List Nat) (x y : Int) (marker : Nat) :
    Except ((Int × Int) × List Nat) (Int × List Nat) :=
  if check_xy b x y then
    Except.ok (xy_to_position b x y, board_add cells (xy_to_position b x y) marker)
  else Except.error ((x, y), cells)

/-- `Wall.place` for a user-created wall (`otherside is None`): place the
one-sided marker, then create the mirror wall at
`position_to_xy(neighbour(direction))` with the flipped direction and place
it through the base `Placeable.place`. -/
def wall_place (b : Board) (cells : List Nat) (x y : Int) (direction : Nat) :
    Except ((Int × Int) × List Nat) (List Nat) :=
  match placeable_place b cells x y direction with
  | Except.error e => Except.error e
  | Except.ok (position, cells1) =>
    let other := position_to_xy b (neighbour b position direction)
    match placeable_place b cells1 other.1 other.2 ((FLIPDIRS direction).getD 0) with
    | Except.error e => Except.error e
    | Except.ok (_, cells2) => Except.ok cells2

/-- The cell store with every `ROBOT` bit cleared: the static part of the
board, unchanged by the search. -/
def stripRobots (cells : List Nat) : List Nat :=
  cells.map fun v => andNot v ROBOT

/-- Well-formedness of a reachable program state: positive board dimensions,
a cell array of the right size, robots on distinct valid cells, the `ROBOT`
bit set exactly at robot positions, cell values within the 8 marker bits,
and every bouncer cell carrying a legal orientation pair and no `GOAL` bit
(the configurations on which the Python `trace` cannot raise `KeyError`). -/
def Consistent (b : Board) (st : SearchState) : Prop :=
  1 ≤ b.width ∧ 1 ≤ b.height ∧
  st.cells.length = b.width * b.height ∧
  (∀ p ∈ st.robots, 0 ≤ p ∧ p.toNat < st.cells.length) ∧
  st.robots.Nodup ∧
  (∀ i < st.cells.length, (cellGet st.cells i &&& ROBOT ≠ 0 ↔ (i : Int) ∈ st.robots)) ∧
  (∀ i < st.cells.length, cellGet st.cells i < 256) ∧
  (∀ i < st.cells.length, cellGet st.cells i &&& BOUNCER ≠ 0 →
    (cellGet st.cells i &&& 15) ∈ BOUNCER_PAIRS ∧ cellGet st.cells i &&& GOAL = 0)

/-- Deciding `Consistent` by unfolding it to its bounded components. -/
instance (b : Board) (st : SearchState) : Decidable (Consistent b st) := by
  unfold Consistent
  infer_instance

/-- Soundness of a despair table with respect to the static board `base`:
whatever depth the table records for a configuration's key, no configuration
of the same board carrying that key can win within that many moves. -/
def DSound (b : Board) (base : List Nat) (d : List (List Int × Nat)) : Prop :=
  ∀ st : SearchState, Consistent b st → stripRobots st.cells = base →
    ∀ n ≤ dGet d (robot_state st.robots), winsIn b st.cells st.robots n = false

/-- Replay a list of moves from a state by executing them in order. -/
def applyMoves (st : SearchState) (ms : List Move) : SearchState :=
  ms.foldl (fun s m => Move.execute m s) st

/-- A 2x1 board: robot on cell 0, goal on cell 1. -/
def exBoard : Board :=
  { width := 2, height := 1, min_moves := 1, max_moves := 2, max_bounces := 50,
    goal_pos := 1 }

/-- The start state for `exBoard`. -/
def exState : SearchState :=
  { cells := [ROBOT, GOAL], robots := [0], moves := [], despair := [] }

/-- A 2x1 board whose goal sits under the robot's start cell, so the first
budget fails. -/
def exFailBoard : Board :=
  { width := 2, height := 1, min_moves := 1, max_moves := 1, max_bounces := 50,
    goal_pos := 0 }

/-- The start state for `exFailBoard`. -/
def exFailState : SearchState :=
  { cells := [ROBOT ||| GOAL, 0], robots := [0], moves := [], despair := [] }

/-- A state with two robots, used to refute the unconditional execute/undo
round-trip: moving robot 0 onto robot 1's cell and back erases robot 1's
marker. -/
def twoRobotState : SearchState :=
  { cells := [ROBOT, ROBOT], robots := [0, 1], moves := [], despair := [] }

/-- A move of robot 0 from cell 0 to cell 1 on `twoRobotState`. -/
def twoRobotMove : Move :=
  { robot := 0, direction := EAST, start_position := 0, stop_position := 1 }

/-- A 2x1 board with `max_bounces = 0`, on which any redirection raises
`BounceLoopException`. -/
def exBounceBoard : Board :=
  { width := 2, height := 1, min_moves := 1, max_moves := 1, max_bounces := 0,
    goal_pos := 0 }

/-- Cells for `exBounceBoard`: a robot on cell 0 and a bouncer on cell 1
whose orientation pair contains `EAST`. -/
def exBounceCells : List Nat := [ROBOT, BOUNCER ||| 3]

/-- A 2x1 board used for the `KeyError` refutations. -/
def exKeyBoard : Board :=
  { width := 2, height := 1, min_moves := 1, max_moves := 1, max_bounces := 5,
    goal_pos := 0 }

/-- Cells with a bouncer on cell 1 that also carries the `GOAL` marker: the
orientation pair `[N, E]` is intact (no stray wall-segment bit), yet entering
it eastward leaves the residue `NORTH | GOAL`, an invalid `FLIPDIRS` key. -/
def exGoalBouncerCells : List Nat := [0, BOUNCER ||| 3 ||| GOAL]

/-- Cells with a bouncer on cell 0 (pair `SOUTH | WEST`) that also carries a
stray `NORTH` wall-segment bit; entering it westward leaves the residue
`NORTH | SOUTH`, an invalid `FLIPDIRS` key. -/
def exWallBouncerCells : List Nat := [BOUNCER ||| 12 ||| NORTH, 0]

/-- Steps a slide can still take in one direction before leaving the board:
the cell index itself shrinks when moving north or west and grows toward
`width * height` when moving south or east. -/
def straight_dist (b : Board) (p : Int) (d : Nat) : Nat :=
  if d = NORTH ∨ d = WEST then p.toNat else b.width * b.height - p.toNat

-- ===================================================================
-- Theorems
-- ===================================================================

theorem getD_set_self {α} (l : List α) (i : Nat) (v d : α) (h : i < l.length) :
    (l.set i v).getD i d = v := by
  rw [List.getD_eq_getElem?_getD, List.getElem?_set]
  simp [h]

theorem getD_set_ne {α} (l : List α) (i j : Nat) (v d : α) (h : i ≠ j) :
    (l.set i v).getD j d = l.getD j d := by
  rw [List.getD_eq_getElem?_getD, List.getElem?_set_ne h, ← List.getD_eq_getElem?_getD]

theorem set_getD_self {α} (l : List α) (i : Nat) (d : α) (h : i < l.length) :
    l.set i (l.getD i d) = l := by
  rw [List.getD_eq_getElem?_getD, List.getElem?_eq_getElem h]
  apply List.ext_getElem?
  intro n
  rw [List.getElem?_set]
  split
  · next heq =>
    subst heq
    simp [List.getElem?_eq_getElem h]
  · rfl

theorem cellGet_set_self (cells : List Nat) (p : Int) (v : Nat)
    (h : p.toNat < cells.length) : cellGet (cells.set p.toNat v) p = v :=
  getD_set_self cells p.toNat v 0 h

theorem cellGet_set_ne (cells : List Nat) (p q : Int) (v : Nat)
    (h : p.toNat ≠ q.toNat) : cellGet (cells.set p.toNat v) q = cellGet cells q :=
  getD_set_ne cells p.toNat q.toNat v 0 h

theorem toNat_ne_of_ne {p q : Int} (h0 : 0 ≤ p) (h1 : 0 ≤ q) (h : p ≠ q) :
    p.toNat ≠ q.toNat := by
  intro he
  apply h
  have := congrArg (Int.ofNat) he
  simpa [Int.toNat_of_nonneg h0, Int.toNat_of_nonneg h1] using this


theorem testBit_andNot (x m : Nat) (i : Nat) :
    (andNot x m).testBit i = (x.testBit i && !(m.testBit i)) := by
  unfold andNot
  rw [Nat.testBit_xor, Nat.testBit_and]
  cases x.testBit i <;> cases m.testBit i <;> rfl

theorem testBit_ROBOT (i : Nat) : ROBOT.testBit i = decide (4 = i) := by
  have : ROBOT = 2 ^ 4 := by norm_num [ROBOT]
  rw [this, Nat.testBit_two_pow]

theorem and_ROBOT_ne_iff (x : Nat) : x &&& ROBOT ≠ 0 ↔ x.testBit 4 := by
  have h : x &&& ROBOT = (x.testBit 4).toNat * 2 ^ 4 := by
    have h2 : ROBOT = 2 ^ 4 := by norm_num [ROBOT]
    rw [h2, Nat.and_two_pow]
  rw [h]
  cases x.testBit 4 <;> simp

theorem andNot_and_ROBOT (x : Nat) : andNot x ROBOT &&& ROBOT = 0 := by
  by_contra h
  have := (and_ROBOT_ne_iff _).1 h
  rw [testBit_andNot, testBit_ROBOT] at this
  simp at this

theorem or_andNot_ROBOT {x : Nat} (h : x &&& ROBOT ≠ 0) :
    andNot x ROBOT ||| ROBOT = x := by
  have h4 := (and_ROBOT_ne_iff x).1 h
  apply Nat.eq_of_testBit_eq
  intro i
  rw [Nat.testBit_or, testBit_andNot, testBit_ROBOT]
  by_cases hi : 4 = i
  · subst hi
    simp [h4]
  · simp [hi]

theorem andNot_or_ROBOT {x : Nat} (h : x &&& ROBOT = 0) :
    andNot (x ||| ROBOT) ROBOT = x := by
  have h4 : x.testBit 4 = false := by
    cases hb : x.testBit 4
    · rfl
    · exact absurd h (by simpa using (and_ROBOT_ne_iff x).2 (by simp [hb]))
  apply Nat.eq_of_testBit_eq
  intro i
  rw [testBit_andNot, Nat.testBit_or, testBit_ROBOT]
  by_cases hi : 4 = i
  · subst hi
    simp [h4]
  · simp [hi]

theorem and_or_ROBOT (x : Nat) : (x ||| ROBOT) &&& ROBOT ≠ 0 := by
  rw [and_ROBOT_ne_iff, Nat.testBit_or, testBit_ROBOT]
  simp

theorem execute_undo_exact (st : SearchState) (m : Move)
    (hi : m.robot < st.robots.length)
    (hst : st.robots.getD m.robot 0 = m.start_position)
    (hs0 : 0 ≤ m.start_position)
    (hsl : m.start_position.toNat < st.cells.length)
    (ht0 : 0 ≤ m.stop_position)
    (htl : m.stop_position.toNat < st.cells.length)
    (hrob : cellGet st.cells m.start_position &&& ROBOT ≠ 0)
    (hstop : m.stop_position = m.start_position ∨
      cellGet st.cells m.stop_position &&& ROBOT = 0) :
    Move.undo m (Move.execute m st) = st := by
  obtain ⟨cs, rs, mv, dp⟩ := st
  simp only at hst hsl htl hrob hstop hi
  simp only [Move.undo, Move.execute, robot_move, move_cells, move_robots,
    board_add, board_remove]
  have hrget : (rs.set m.robot m.stop_position).getD m.robot 0 = m.stop_position :=
    getD_set_self rs m.robot m.stop_position 0 hi
  rw [hst, hrget]
  simp only [SearchState.mk.injEq]
  refine ⟨?_, ?_, trivial, trivial⟩
  · -- the cell array is restored
    by_cases he : m.stop_position = m.start_position
    · rw [he]
      rw [cellGet_set_self cs m.start_position _ hsl]
      rw [cellGet_set_self _ m.start_position _ (by simpa using hsl)]
      rw [cellGet_set_self _ m.start_position _ (by simpa using hsl)]
      rw [andNot_or_ROBOT (andNot_and_ROBOT _)]
      rw [List.set_set, List.set_set, List.set_set]
      rw [or_andNot_ROBOT hrob]
      exact set_getD_self cs m.start_position.toNat 0 hsl
    · have hne : m.stop_position.toNat ≠ m.start_position.toNat :=
        toNat_ne_of_ne ht0 hs0 he
      have hw : cellGet cs m.stop_position &&& ROBOT = 0 := hstop.resolve_left he
      rw [cellGet_set_ne cs m.start_position m.stop_position _ (Ne.symm hne)]
      rw [cellGet_set_self _ m.stop_position _ (by simpa using htl)]
      rw [andNot_or_ROBOT hw]
      rw [List.set_set]
      rw [cellGet_set_ne _ m.stop_position m.start_position _ hne]
      rw [cellGet_set_self cs m.start_position _ hsl]
      rw [or_andNot_ROBOT hrob]
      rw [List.set_comm _ _ _ (fun hx => hne (hx.symm))]
      rw [List.set_set]
      have h1 : cs.set m.stop_position.toNat (cellGet cs m.stop_position) = cs :=
        set_getD_self cs m.stop_position.toNat 0 htl
      have h2 : cs.set m.start_position.toNat (cellGet cs m.start_position) = cs :=
        set_getD_self cs m.start_position.toNat 0 hsl
      rw [h1, h2]
  · -- the robot list is restored
    rw [List.set_set, ← hst]
    exact set_getD_self rs m.robot 0 hi

/-- C5 counterexample: the round trip is not exact for an arbitrary `Move`
whose robot stands at the move's start position.  On `twoRobotState`, robot 0
stands at the start cell of `twoRobotMove`, but its stop cell is occupied by
robot 1, so undoing after executing erases robot 1's `ROBOT` marker and the
cell array differs from the original. -/
theorem C5_counterexample :
    twoRobotState.robots.getD twoRobotMove.robot 0 = twoRobotMove.start_position ∧
    Move.undo twoRobotMove (Move.execute twoRobotMove twoRobotState) ≠ twoRobotState := by
  decide

/-- C5 (amended): for a `Move` whose robot stands at the move's start
position, executing and then undoing restores every cell bitmask and the
robot's position bit for bit, provided the start cell carries the `ROBOT`
marker and the stop cell carries none (or equals the start cell) — as is the
case for every move the program generates on a consistent board. -/
theorem C5_execute_undo (st : SearchState) (m : Move)
    (hi : m.robot < st.robots.length)
    (hst : st.robots.getD m.robot 0 = m.start_position)
    (hs0 : 0 ≤ m.start_position)
    (hsl : m.start_position.toNat < st.cells.length)
    (ht0 : 0 ≤ m.stop_position)
    (htl : m.stop_position.toNat < st.cells.length)
    (hrob : cellGet st.cells m.start_position &&& ROBOT ≠ 0)
    (hstop : m.stop_position = m.start_position ∨
      cellGet st.cells m.stop_position &&& ROBOT = 0) :
    Move.undo m (Move.execute m st) = st :=
  execute_undo_exact st m hi hst hs0 hsl ht0 htl hrob hstop

/-- Witness for C5: the amended round trip evaluated on the one-robot
example board. -/
theorem C5_execute_undo_witness :
    Move.undo ⟨0, EAST, 0, 1⟩ (Move.execute ⟨0, EAST, 0, 1⟩ exState) = exState :=
  C5_execute_undo exState ⟨0, EAST, 0, 1⟩ (by decide) (by decide) (by decide)
    (by decide) (by decide) (by decide) (by decide) (by decide)

theorem or_and_absorb (x d : Nat) : (x ||| d) &&& d = d := by
  apply Nat.eq_of_testBit_eq
  intro i
  rw [Nat.testBit_and, Nat.testBit_or]
  cases x.testBit i <;> cases d.testBit i <;> rfl

theorem fmod_neg_one {W : Int} (hW : 1 ≤ W) : Int.fmod (-1) W = W - 1 := by
  rw [Int.fmod_eq_emod _ (by omega : (0:Int) ≤ W)]
  have h1 := Int.add_mul_emod_self_left (-1) W 1
  have h3 : (-1 + W * 1) = W - 1 := by ring
  rw [h3] at h1
  rw [← h1]
  exact Int.emod_eq_of_lt (by omega) (by omega)

theorem fdiv_neg_one {W : Int} (hW : 1 ≤ W) : Int.fdiv (-1) W = -1 := by
  have h := Int.fdiv_add_fmod (-1) W
  rw [fmod_neg_one hW] at h
  have h4 : W * Int.fdiv (-1) W = W * (-1) := by omega
  exact mul_left_cancel₀ (by omega : W ≠ 0) h4

theorem position_to_xy_neg_one (b : Board) (hW : 1 ≤ b.width) :
    position_to_xy b (-1) = ((b.width : Int), 0) := by
  have hW1 : (1 : Int) ≤ b.width := by exact_mod_cast hW
  unfold position_to_xy
  rw [fmod_neg_one hW1, fdiv_neg_one hW1]
  norm_num

theorem xy_to_position_bounds (b : Board) {x y : Int} (h : check_xy b x y = true) :
    0 ≤ xy_to_position b x y ∧
      xy_to_position b x y < (b.width : Int) * b.height := by
  unfold check_xy at h
  simp only [Bool.and_eq_true, decide_eq_true_eq] at h
  obtain ⟨⟨⟨hx1, hx2⟩, hy1⟩, hy2⟩ := h
  unfold xy_to_position
  constructor
  · have := mul_nonneg (by omega : (0:Int) ≤ y - 1) (by positivity : (0:Int) ≤ (b.width:Int))
    omega
  · have h1 : (y - 1) * b.width ≤ (b.height - 1) * b.width :=
      mul_le_mul_of_nonneg_right (by omega) (by positivity)
    have h2 : ((b.height:Int) - 1) * b.width = (b.width:Int) * b.height - b.width := by ring
    omega

theorem position_to_xy_check (b : Board) {q : Int} (hW : 1 ≤ b.width)
    (h0 : 0 ≤ q) (hlt : q < (b.width : Int) * b.height) :
    check_xy b (position_to_xy b q).1 (position_to_xy b q).2 = true := by
  have hW0 : (0:Int) < b.width := by exact_mod_cast hW
  unfold position_to_xy check_xy
  simp only [Bool.and_eq_true, decide_eq_true_eq]
  rw [Int.fmod_eq_emod _ (le_of_lt hW0), Int.fdiv_eq_ediv _ (le_of_lt hW0)]
  have h1 : 0 ≤ q % b.width := Int.emod_nonneg _ (ne_of_gt hW0)
  have h2 : q % b.width < b.width := Int.emod_lt_of_pos _ hW0
  have h3 : 0 ≤ q / b.width := Int.ediv_nonneg h0 (le_of_lt hW0)
  have h4 : q / (b.width : Int) < b.height := by
    rw [Int.ediv_lt_iff_lt_mul hW0]
    calc q < (b.width : Int) * b.height := hlt
    _ = (b.height : Int) * b.width := by ring
  omega

theorem xy_position_roundtrip (b : Board) (q : Int) :
    xy_to_position b (position_to_xy b q).1 (position_to_xy b q).2 = q := by
  unfold xy_to_position position_to_xy
  have h := Int.fdiv_add_fmod q b.width
  simp only
  linear_combination h

theorem neighbour_lt (b : Board) {p : Int} (d : Nat) (hW : 1 ≤ b.width)
    (hlt : p < (b.width : Int) * b.height)
    (hq : 0 ≤ neighbour b p d) :
    neighbour b p d < (b.width : Int) * b.height := by
  have hT : ((b.width : Int) * b.height) % b.width = 0 := Int.mul_emod_right _ _
  have hW0 : (0:Int) < b.width := by exact_mod_cast hW
  unfold neighbour at hq ⊢
  split_ifs at hq ⊢ with h1 h2 h3 h4 h5 h6 h7 h8 <;> try omega
  · -- east: p + 1 cannot equal width*height since the latter is divisible
    rcases (by omega : p + 1 < (b.width : Int) * b.height ∨
        p + 1 = (b.width : Int) * b.height) with h | h
    · exact h
    · exact absurd (h ▸ hT) h4

theorem neighbour_ne (b : Board) {p : Int} (d : Nat) (hW : 1 ≤ b.width)
    (hq : 0 ≤ neighbour b p d) : neighbour b p d ≠ p := by
  have hW0 : (0:Int) < b.width := by exact_mod_cast hW
  unfold neighbour at hq ⊢
  split_ifs at hq ⊢ <;> omega

/-- C2 counterexample: a wall at a1 pointing north (off the board) does not
place only the one-sided marker without error; placement raises the
bad-position `UsageError` for the mirror coordinate `(width, 0)` computed
from the off-board index `-1`, after the one-sided marker was already
recorded. -/
theorem C2_counterexample :
    wall_place exBoard [0, 0] 1 1 NORTH =
      Except.error ((2, 0), [NORTH, 0]) := by
  rfl

/-- C2 (amended): when the wall's neighbour in its direction is off-board,
placement does not succeed: the one-sided marker is recorded at C and then
the auto-created mirror wall, whose coordinates compute to `(width, 0)` from
the off-board index `-1`, fails the bounds check, raising the bad-position
error. -/
theorem C2_offboard_wall (b : Board) (cells : List Nat) (x y : Int) (d : Nat)
    (hW : 1 ≤ b.width)
    (hxy : check_xy b x y = true)
    (hoff : neighbour b (xy_to_position b x y) d = -1) :
    wall_place b cells x y d =
      Except.error (((b.width : Int), 0),
        board_add cells (xy_to_position b x y) d) := by
  have hxy2 := position_to_xy_neg_one b hW
  have hbad : check_xy b (b.width : Int) 0 = false := by
    unfold check_xy
    simp
  simp only [wall_place, placeable_place, hxy, if_true, hoff, hxy2, hbad,
    Bool.false_eq_true, if_false]

/-- Witness for C2: a wall at a1 pointing west on the 2x1 example board. -/
theorem C2_offboard_wall_witness :
    wall_place exBoard [0, 0] 1 1 WEST =
      Except.error ((2, 0), board_add [0, 0] (xy_to_position exBoard 1 1) WEST) :=
  C2_offboard_wall exBoard [0, 0] 1 1 WEST (by decide) (by decide) (by decide)

/-- C8: placing a wall whose neighbour in its direction is on the board
succeeds and records the wall bit at the cell and the flipped wall bit at the
neighbour, so the wall-marker relation is symmetric between the two cells. -/
theorem C8_wall_symmetry (b : Board) (cells : List Nat) (x y : Int) (d : Nat)
    (hW : 1 ≤ b.width)
    (hlen : cells.length = b.width * b.height)
    (hxy : check_xy b x y = true)
    (hd : d ∈ DIRECTIONS)
    (hq : 0 ≤ neighbour b (xy_to_position b x y) d) :
    ∃ cells2,
      wall_place b cells x y d = Except.ok cells2 ∧
      board_has cells2 (xy_to_position b x y) d ≠ 0 ∧
      board_has cells2 (neighbour b (xy_to_position b x y) d)
        ((FLIPDIRS d).getD 0) ≠ 0 := by
  obtain ⟨hp0, hplt⟩ := xy_to_position_bounds b hxy
  have hqlt := neighbour_lt b d hW hplt hq
  have hqne := neighbour_ne b d hW hq
  have hcheck2 := position_to_xy_check b hW hq hqlt
  have hpN : (xy_to_position b x y).toNat < cells.length := by
    rw [hlen]
    have : ((b.width * b.height : Nat) : Int) = (b.width : Int) * b.height := by
      push_cast
      ring
    omega
  have hqN : (neighbour b (xy_to_position b x y) d).toNat < cells.length := by
    rw [hlen]
    have : ((b.width * b.height : Nat) : Int) = (b.width : Int) * b.height := by
      push_cast
      ring
    omega
  have hNne : (neighbour b (xy_to_position b x y) d).toNat ≠
      (xy_to_position b x y).toNat :=
    toNat_ne_of_ne hq hp0 hqne
  have hplace : wall_place b cells x y d =
      Except.ok (board_add (board_add cells (xy_to_position b x y) d)
        (neighbour b (xy_to_position b x y) d) ((FLIPDIRS d).getD 0)) := by
    simp only [wall_place, placeable_place, hxy, if_true, hcheck2,
      xy_position_roundtrip]
  refine ⟨_, hplace, ?_, ?_⟩
  · unfold board_has board_add
    rw [cellGet_set_ne _ _ _ _ hNne]
    rw [cellGet_set_self _ _ _ hpN]
    rw [or_and_absorb]
    simp [DIRECTIONS, NORTH, EAST, SOUTH, WEST] at hd
    rcases hd with h | h | h | h <;> simp [h]
  · unfold board_has board_add
    rw [cellGet_set_self _ _ _ (by simpa using hqN)]
    rw [or_and_absorb]
    simp [DIRECTIONS, NORTH, EAST, SOUTH, WEST] at hd
    rcases hd with h | h | h | h <;> simp [h, FLIPDIRS, NORTH, EAST, SOUTH, WEST]

/-- Witness for C8: a wall at a1 pointing east on the 2x1 example board puts
the `EAST` bit on cell 0 and the `WEST` bit on cell 1. -/
theorem C8_wall_symmetry_witness :
    ∃ cells2,
      wall_place exBoard [0, 0] 1 1 EAST = Except.ok cells2 ∧
      board_has cells2 (xy_to_position exBoard 1 1) EAST ≠ 0 ∧
      board_has cells2 (neighbour exBoard (xy_to_position exBoard 1 1) EAST)
        ((FLIPDIRS EAST).getD 0) ≠ 0 :=
  C8_wall_symmetry exBoard [0, 0] 1 1 EAST (by decide) (by decide) (by decide)
    (by decide) (by decide)

/-- C6: if the neighbour cell in the travel direction carries a bouncer whose
orientation pair does not contain the travel direction (and no other
markers), the trace stops and returns the current cell — exactly the result
it gives when that cell instead holds a plain `BLOCK`.  The orientation bits
of the bouncer's marker act as wall segments facing the flipped directions,
which is what blocks the entry. -/
theorem C6_bouncer_plain_blocker (b : Board) (cells : List Nat) (q p : Int)
    (d o fuel bounces : Nat)
    (ho : o ∈ BOUNCER_PAIRS) (hd : d ∈ DIRECTIONS) (hdo : d &&& o = 0)
    (hn : neighbour b q d = p)
    (hpl : p.toNat < cells.length)
    (hcell : cellGet cells p = BOUNCER ||| o) :
    trace b cells (fuel + 1) q d bounces = TraceResult.ok q ∧
    trace b (cells.set p.toNat BLOCK) (fuel + 1) q d bounces = TraceResult.ok q := by
  have hcell2 : cellGet (cells.set p.toNat (64 : Nat)) p = 64 :=
    cellGet_set_self _ _ _ hpl
  simp [BOUNCER_PAIRS] at ho
  simp [DIRECTIONS, NORTH, EAST, SOUTH, WEST] at hd
  rcases ho with ho | ho | ho | ho <;> rcases hd with hd | hd | hd | hd <;>
    subst ho <;> subst hd <;>
    first
      | (exact absurd hdo (by decide))
      | (constructor <;>
          simp [trace, FLIPDIRS, NORTH, EAST, SOUTH, WEST, hn, board_has,
            hcell, hcell2, ROBOT, BLOCK, BOUNCER])

/-- Witness for C6: a bouncer oriented `SOUTH|WEST` entered moving east. -/
theorem C6_bouncer_plain_blocker_witness :
    trace exKeyBoard [0, BOUNCER ||| 12] (5 + 1) 0 EAST 0 = TraceResult.ok 0 ∧
    trace exKeyBoard ([0, BOUNCER ||| 12].set 1 BLOCK) (5 + 1) 0 EAST 0 =
      TraceResult.ok 0 :=
  C6_bouncer_plain_blocker exKeyBoard [0, BOUNCER ||| 12] 0 1 EAST 12 5 0
    (by decide) (by decide) (by decide) (by decide) (by decide) (by decide)

theorem traceN_fst (b : Board) (cells : List Nat) :
    ∀ (fuel : Nat) (p : Int) (d k : Nat),
    (traceN b cells fuel p d k).1 = trace b cells fuel p d k := by
  intro fuel
  induction fuel with
  | zero => intro p d k; rfl
  | succ n ih =>
    intro p d k
    rcases hF : FLIPDIRS d with _ | flipped
    · simp [traceN, trace, hF]
    · simp only [traceN, trace, hF]
      split_ifs with h1 h2 h3
      · rfl
      · rfl
      · rcases hG : FLIPDIRS (board_has cells (neighbour b p d)
          (andNot 255 (BOUNCER ||| d))) with _ | nd
        · simp [hG]
        · simp only [hG]
          exact ih _ _ _
      · exact ih _ _ _

theorem traceN_count_le (b : Board) (cells : List Nat) :
    ∀ (fuel : Nat) (p : Int) (d k : Nat), k ≤ b.max_bounces →
    (traceN b cells fuel p d k).2 + k ≤ b.max_bounces := by
  intro fuel
  induction fuel with
  | zero => intro p d k hk; simpa [traceN] using hk
  | succ n ih =>
    intro p d k hk
    rcases hF : FLIPDIRS d with _ | flipped
    · simpa [traceN, hF] using hk
    · simp only [traceN, hF]
      split_ifs with h1 h2 h3
      · simpa using hk
      · simpa using hk
      · rcases hG : FLIPDIRS (board_has cells (neighbour b p d)
          (andNot 255 (BOUNCER ||| d))) with _ | nd
        · simpa [hG] using hk
        · simp only [hG]
          have := ih (neighbour b p d) nd (k + 1) (by omega)
          omega
      · exact ih _ _ _ hk

theorem possible_moves_mem {b : Board} {cells : List Nat} {robots : List Int}
    {m : Move} :
    m ∈ possible_moves b cells robots ↔
      m.robot < robots.length ∧ m.direction ∈ DIRECTIONS ∧
      m.start_position = robots.getD m.robot 0 ∧
      trace b cells (trace_fuel b) (robots.getD m.robot 0) m.direction 0 =
        TraceResult.ok m.stop_position ∧
      m.stop_position ≠ robots.getD m.robot 0 := by
  obtain ⟨i, d, s, t⟩ := m
  simp only [possible_moves, List.mem_flatMap, List.mem_filterMap,
    List.mem_range]
  constructor
  · rintro ⟨j, hj, e, hemem, hsome⟩
    rcases htr : trace b cells (trace_fuel b) (robots.getD j 0) e 0 with
      stop | _ | _ | _ <;> rw [htr] at hsome <;> try simp at hsome
    obtain ⟨hne, hji, hde, hss, hts⟩ := hsome
    subst hji
    subst hde
    subst hts
    rw [← List.getD_eq_getElem?_getD] at hss hne
    subst hss
    exact ⟨hj, hemem, rfl, htr, fun hx => hne hx⟩
  · rintro ⟨h1, h2, h3, h4, h5⟩
    subst h3
    refine ⟨i, h1, d, h2, ?_⟩
    rw [h4]
    simp only [ne_eq, ite_not]
    rw [if_neg ?hc]
    case hc => exact h5

/-- C7: the bounce counter caps redirections.  (1) Any trace performs at most
`max_bounces` redirections beyond its starting count.  (2) A redirection
attempted when the counter has already reached `max_bounces` raises the
`BounceLoopException` outcome.  (3) A robot/direction pair whose slide raises
the exception contributes no move: the generator discards it (the exception
is consumed inside `possible_moves`, which is a total function into move
lists, so nothing propagates to the search engine). -/
theorem C7_bounce_cap (b : Board) :
    (∀ (cells : List Nat) (fuel : Nat) (p : Int) (d k : Nat),
      k ≤ b.max_bounces →
      (traceN b cells fuel p d k).2 + k ≤ b.max_bounces) ∧
    (∀ (cells : List Nat) (fuel : Nat) (p : Int) (d k flipped : Nat),
      FLIPDIRS d = some flipped →
      ¬(neighbour b p d < 0 ∨
        board_has cells (neighbour b p d) (ROBOT ||| BLOCK ||| flipped) ≠ 0) →
      board_has cells (neighbour b p d) BOUNCER ≠ 0 →
      b.max_bounces ≤ k →
      trace b cells (fuel + 1) p d k = TraceResult.bounceLoop) ∧
    (∀ (cells : List Nat) (robots : List Int) (i d : Nat),
      trace b cells (trace_fuel b) (robots.getD i 0) d 0 =
        TraceResult.bounceLoop →
      ∀ m ∈ possible_moves b cells robots,
        ¬(m.robot = i ∧ m.direction = d)) := by
  refine ⟨traceN_count_le b, ?_, ?_⟩
  · intro cells fuel p d k flipped hF hnb hbc hcap
    simp only [trace, hF]
    rw [if_neg hnb, if_pos hbc, if_pos hcap]
  · intro cells robots i d htr m hm ⟨hmi, hmd⟩
    rw [possible_moves_mem] at hm
    obtain ⟨h1, h2, h3, h4, h5⟩ := hm
    rw [hmi, hmd] at h4
    rw [htr] at h4
    exact TraceResult.noConfusion h4

/-- Witness for C7: on the zero-`max_bounces` board with a bouncer east of
the robot, the eastward trace raises the bounce-loop outcome and the
generator yields no move at all. -/
theorem C7_bounce_cap_witness :
    (traceN exBounceBoard exBounceCells 7 0 EAST 0).2 + 0 ≤
        exBounceBoard.max_bounces ∧
    trace exBounceBoard exBounceCells (6 + 1) 0 EAST 0 =
        TraceResult.bounceLoop ∧
    ¬((⟨0, EAST, 0, 1⟩ : Move) ∈
      possible_moves exBounceBoard exBounceCells [0] ∧ True) := by
  refine ⟨(C7_bounce_cap exBounceBoard).1 exBounceCells 7 0 EAST 0 (by decide),
    (C7_bounce_cap exBounceBoard).2.1 exBounceCells 6 0 EAST 0 WEST (by decide)
      (by decide) (by decide) (by decide), ?_⟩
  rintro ⟨hmem, -⟩
  exact ((C7_bounce_cap exBounceBoard).2.2 exBounceCells [0] 0 EAST (by decide)
    _ hmem) ⟨rfl, rfl⟩

theorem execute_moves (m : Move) (s : SearchState) :
    (Move.execute m s).moves = s.moves := rfl

theorem execute_despair (m : Move) (s : SearchState) :
    (Move.execute m s).despair = s.despair := rfl

theorem undo_moves (m : Move) (s : SearchState) :
    (Move.undo m s).moves = s.moves := rfl

theorem undo_despair (m : Move) (s : SearchState) :
    (Move.undo m s).despair = s.despair := rfl

theorem pop_push (m : Move) (s : SearchState) : popMove (pushMove m s) = s := by
  simp only [popMove, pushMove, List.dropLast_concat]

theorem search_go_fail_moves (b : Board) (sub : SearchState → Bool × SearchState)
    (deep : Bool) (key : List Int) (r : Nat)
    (Hsub : ∀ st, (sub st).1 = false → (sub st).2.moves = st.moves) :
    ∀ (ms : List Move) (st : SearchState),
      (search_go b sub deep key r ms st).1 = false →
      (search_go b sub deep key r ms st).2.moves = st.moves := by
  intro ms
  induction ms with
  | nil => intro st _; rfl
  | cons m rest ih =>
    intro st h
    simp only [search_go] at h ⊢
    by_cases hg : goal_reached b (pushMove m (Move.execute m st)).cells = true
    · rw [if_pos hg] at h
      exact Bool.noConfusion h
    · rw [if_neg hg] at h ⊢
      by_cases hd : deep = true
      · rw [if_pos hd] at h ⊢
        rcases hsub1 : sub (pushMove m (Move.execute m st)) with ⟨bb, st2⟩
        rw [hsub1] at h
        cases bb
        · show (search_go b sub deep key r rest
            (Move.undo m (popMove st2))).2.moves = st.moves
          have h2 : (search_go b sub deep key r rest
              (Move.undo m (popMove st2))).1 = false := h
          rw [ih _ h2]
          have h5 : st2.moves = (pushMove m (Move.execute m st)).moves := by
            have h5a := Hsub _ (show (sub (pushMove m (Move.execute m st))).1
              = false by rw [hsub1])
            rw [hsub1] at h5a
            exact h5a
          simp only [undo_moves, popMove, h5, pushMove, execute_moves]
          exact List.dropLast_concat
        · exact Bool.noConfusion h
      · rw [if_neg hd] at h ⊢
        rw [pop_push] at h ⊢
        have h2 : (search_go b sub deep key r rest
            (Move.undo m (Move.execute m st))).1 = false := h
        rw [ih _ h2]
        rfl

theorem search_rec_fail_moves (b : Board) :
    ∀ (r : Nat) (st : SearchState),
      (search_rec b r st).1 = false →
      (search_rec b r st).2.moves = st.moves := by
  intro r
  induction r with
  | zero => intro st _; rfl
  | succ n ih =>
    intro st h
    simp only [search_rec] at h ⊢
    by_cases ht : dGet st.despair (robot_state st.robots) < n + 1
    · rw [if_pos ht] at h ⊢
      exact search_go_fail_moves b _ _ _ _ ih _ st h
    · rw [if_neg ht]

theorem search_go_succ_moves (b : Board) (sub : SearchState → Bool × SearchState)
    (deep : Bool) (key : List Int) (r : Nat)
    (HsubF : ∀ st, (sub st).1 = false → (sub st).2.moves = st.moves)
    (HsubT : ∀ st, (sub st).1 = true →
      st.moves.length < (sub st).2.moves.length) :
    ∀ (ms : List Move) (st : SearchState),
      (search_go b sub deep key r ms st).1 = true →
      st.moves.length < (search_go b sub deep key r ms st).2.moves.length := by
  intro ms
  induction ms with
  | nil => intro st h; exact Bool.noConfusion h
  | cons m rest ih =>
    intro st h
    simp only [search_go] at h ⊢
    by_cases hg : goal_reached b (pushMove m (Move.execute m st)).cells = true
    · rw [if_pos hg]
      simp [pushMove, execute_moves]
    · rw [if_neg hg] at h ⊢
      by_cases hd : deep = true
      · rw [if_pos hd] at h ⊢
        rcases hsub1 : sub (pushMove m (Move.execute m st)) with ⟨bb, st2⟩
        rw [hsub1] at h
        cases bb
        · show st.moves.length < (search_go b sub deep key r rest
            (Move.undo m (popMove st2))).2.moves.length
          have h2 : (search_go b sub deep key r rest
              (Move.undo m (popMove st2))).1 = true := h
          have h4 := ih _ h2
          have h5 : st2.moves = (pushMove m (Move.execute m st)).moves := by
            have h5a := HsubF _ (show (sub (pushMove m (Move.execute m st))).1
              = false by rw [hsub1])
            rw [hsub1] at h5a
            exact h5a
          have hmveq : (Move.undo m (popMove st2)).moves = st.moves := by
            simp only [undo_moves, popMove, h5, pushMove, execute_moves]
            exact List.dropLast_concat
          rw [hmveq] at h4
          exact h4
        · show st.moves.length < st2.moves.length
          have h3 : (pushMove m (Move.execute m st)).moves.length <
              st2.moves.length := by
            have h3a := HsubT _ (show (sub (pushMove m (Move.execute m st))).1
              = true by rw [hsub1])
            rw [hsub1] at h3a
            exact h3a
          simp only [pushMove, execute_moves, List.length_append,
            List.length_singleton] at h3
          omega
      · rw [if_neg hd] at h ⊢
        rw [pop_push] at h ⊢
        have h2 : (search_go b sub deep key r rest
            (Move.undo m (Move.execute m st))).1 = true := h
        exact ih _ h2

theorem search_rec_succ_moves (b : Board) :
    ∀ (r : Nat) (st : SearchState),
      (search_rec b r st).1 = true →
      st.moves.length < (search_rec b r st).2.moves.length := by
  intro r
  induction r with
  | zero => intro st h; exact Bool.noConfusion h
  | succ n ih =>
    intro st h
    simp only [search_rec] at h ⊢
    by_cases ht : dGet st.despair (robot_state st.robots) < n + 1
    · rw [if_pos ht] at h ⊢
      exact search_go_succ_moves b _ _ _ _ (search_rec_fail_moves b n) ih _ st h
    · rw [if_neg ht] at h
      exact Bool.noConfusion h

theorem search_loop_succ_moves (b : Board) :
    ∀ (budgets : List Nat) (st : SearchState) (n : Nat) (ms : List Move)
      (st2 : SearchState), st.moves = [] →
      search_loop b budgets st = (some (n, ms), st2) → 1 ≤ ms.length := by
  intro budgets
  induction budgets with
  | nil =>
    intro st n ms st2 _ h
    simp only [search_loop, Prod.mk.injEq] at h
    exact Option.noConfusion h.1
  | cons r rest ih =>
    intro st n ms st2 hmv h
    simp only [search_loop] at h
    rcases hrec : search_rec b r st with ⟨bb, st1⟩
    rw [hrec] at h
    cases bb
    · have h1 : (search_rec b r st).1 = false := by rw [hrec]
      have h2 := search_rec_fail_moves b r st h1
      rw [hrec] at h2
      exact ih st1 n ms st2 (h2.trans hmv) h
    · have h3 : ((some (r, st1.moves), st1) :
        Option (Nat × List Move) × SearchState) = (some (n, ms), st2) := h
      simp only [Prod.mk.injEq, Option.some.injEq] at h3
      obtain ⟨⟨hn, hms⟩, hst⟩ := h3
      subst hms
      have h1 : (search_rec b r st).1 = true := by rw [hrec]
      have h2 := search_rec_succ_moves b r st h1
      rw [hrec, hmv] at h2
      simp only [List.length_nil] at h2
      omega

/-- C9: the search never reports a zero-move success.  At budget `0` the
recursion fails immediately and untouched; any successful `search_rec` call
strictly grows the move path (the goal is tested only after a move is
executed); and any successful overall `search` reports at least one move —
even when a robot already starts on the goal cell and `min_moves` is `0`,
since those facts are not consulted before the first move. -/
theorem C9_no_zero_move_success (b : Board) :
    (∀ st : SearchState, search_rec b 0 st = (false, st)) ∧
    (∀ (r : Nat) (st : SearchState), (search_rec b r st).1 = true →
      st.moves.length < (search_rec b r st).2.moves.length) ∧
    (∀ (st st2 : SearchState) (n : Nat) (ms : List Move),
      search b st = (some (n, ms), st2) → 1 ≤ ms.length) := by
  refine ⟨fun st => rfl, fun r st => search_rec_succ_moves b r st, ?_⟩
  intro st st2 n ms h
  exact search_loop_succ_moves b _ _ n ms st2 rfl h

/-- Witness for C9: the example board's one-move solution has a non-empty
move list. -/
theorem C9_no_zero_move_success_witness :
    exState.moves.length < (search_rec exBoard 1 exState).2.moves.length :=
  (C9_no_zero_move_success exBoard).2.1 1 exState (by decide)

theorem pushMove_despair (m : Move) (s : SearchState) :
    (pushMove m s).despair = s.despair := rfl

theorem popMove_despair (s : SearchState) :
    (popMove s).despair = s.despair := rfl

theorem dGet_dSet_self (d : List (List Int × Nat)) (key : List Int) (v : Nat) :
    dGet (dSet d key v) key = v := by
  induction d with
  | nil => simp [dGet, dSet]
  | cons e rest ih =>
    obtain ⟨k, w⟩ := e
    by_cases h : k = key
    · simp [dGet, dSet, h]
    · simp [dGet, dSet, h, ih]

theorem dGet_dSet_ne (d : List (List Int × Nat)) (key k : List Int) (v : Nat)
    (h : k ≠ key) : dGet (dSet d key v) k = dGet d k := by
  have hkne : key ≠ k := Ne.symm h
  induction d with
  | nil =>
    show (if key = k then v else dGet [] k) = 0
    rw [if_neg hkne]
    rfl
  | cons e rest ih =>
    obtain ⟨k2, w⟩ := e
    simp only [dSet]
    by_cases h2 : k2 = key
    · rw [if_pos h2]
      subst h2
      show (if k2 = k then v else dGet rest k) = (if k2 = k then w else dGet rest k)
      rw [if_neg hkne, if_neg hkne]
    · rw [if_neg h2]
      show (if k2 = k then w else dGet (dSet rest key v) k) =
        (if k2 = k then w else dGet rest k)
      by_cases h3 : k2 = k
      · rw [if_pos h3, if_pos h3]
      · rw [if_neg h3, if_neg h3]
        exact ih

theorem search_go_fail_despair (b : Board) (sub : SearchState → Bool × SearchState)
    (deep : Bool) (key : List Int) (r : Nat) :
    ∀ (ms : List Move) (st : SearchState),
      (search_go b sub deep key r ms st).1 = false →
      dGet (search_go b sub deep key r ms st).2.despair key = r := by
  intro ms
  induction ms with
  | nil =>
    intro st _
    exact dGet_dSet_self st.despair key r
  | cons m rest ih =>
    intro st h
    simp only [search_go] at h ⊢
    by_cases hg : goal_reached b (pushMove m (Move.execute m st)).cells = true
    · rw [if_pos hg] at h
      exact Bool.noConfusion h
    · rw [if_neg hg] at h ⊢
      by_cases hd : deep = true
      · rw [if_pos hd] at h ⊢
        rcases hsub1 : sub (pushMove m (Move.execute m st)) with ⟨bb, st2⟩
        rw [hsub1] at h
        cases bb
        · exact ih _ h
        · exact Bool.noConfusion h
      · rw [if_neg hd] at h ⊢
        exact ih _ h

theorem search_go_despair_bound (b : Board)
    (sub : SearchState → Bool × SearchState) (deep : Bool) (key : List Int)
    (r rs : Nat)
    (Hsub : ∀ st k, dGet (sub st).2.despair k ≤ max (dGet st.despair k) rs)
    (hrs : rs ≤ r) :
    ∀ (ms : List Move) (st : SearchState) (k : List Int),
      dGet (search_go b sub deep key r ms st).2.despair k ≤
        max (dGet st.despair k) r := by
  intro ms
  induction ms with
  | nil =>
    intro st k
    show dGet (dSet st.despair key r) k ≤ max (dGet st.despair k) r
    by_cases h : k = key
    · subst h
      rw [dGet_dSet_self]
      omega
    · rw [dGet_dSet_ne _ _ _ _ h]
      omega
  | cons m rest ih =>
    intro st k
    simp only [search_go]
    by_cases hg : goal_reached b (pushMove m (Move.execute m st)).cells = true
    · rw [if_pos hg]
      show dGet (pushMove m (Move.execute m st)).despair k ≤
        max (dGet st.despair k) r
      rw [pushMove_despair, execute_despair]
      omega
    · rw [if_neg hg]
      by_cases hd : deep = true
      · rw [if_pos hd]
        rcases hsub1 : sub (pushMove m (Move.execute m st)) with ⟨bb, st2⟩
        have hb : dGet st2.despair k ≤ max (dGet st.despair k) rs := by
          have := Hsub (pushMove m (Move.execute m st)) k
          rw [hsub1] at this
          rw [pushMove_despair, execute_despair] at this
          exact this
        cases bb
        · show dGet (search_go b sub deep key r rest
            (Move.undo m (popMove st2))).2.despair k ≤ max (dGet st.despair k) r
          have h2 := ih (Move.undo m (popMove st2)) k
          rw [undo_despair, popMove_despair] at h2
          omega
        · show dGet st2.despair k ≤ max (dGet st.despair k) r
          omega
      · rw [if_neg hd]
        rw [pop_push]
        have h2 := ih (Move.undo m (Move.execute m st)) k
        rw [undo_despair, execute_despair] at h2
        exact h2

theorem search_go_despair_mono (b : Board)
    (sub : SearchState → Bool × SearchState) (deep : Bool) (key : List Int)
    (r rs : Nat)
    (HsubM : ∀ st k, dGet st.despair k ≤ dGet (sub st).2.despair k)
    (HsubB : ∀ st k, dGet (sub st).2.despair k ≤ max (dGet st.despair k) rs)
    (hrs : rs < r) :
    ∀ (ms : List Move) (st : SearchState),
      dGet st.despair key < r →
      ∀ k, dGet st.despair k ≤ dGet (search_go b sub deep key r ms st).2.despair k := by
  intro ms
  induction ms with
  | nil =>
    intro st hkey k
    show dGet st.despair k ≤ dGet (dSet st.despair key r) k
    by_cases h : k = key
    · subst h
      rw [dGet_dSet_self]
      omega
    · rw [dGet_dSet_ne _ _ _ _ h]
  | cons m rest ih =>
    intro st hkey k
    simp only [search_go]
    by_cases hg : goal_reached b (pushMove m (Move.execute m st)).cells = true
    · rw [if_pos hg]
      show dGet st.despair k ≤ dGet (pushMove m (Move.execute m st)).despair k
      rw [pushMove_despair, execute_despair]
    · rw [if_neg hg]
      by_cases hd : deep = true
      · rw [if_pos hd]
        rcases hsub1 : sub (pushMove m (Move.execute m st)) with ⟨bb, st2⟩
        have hbM : dGet st.despair k ≤ dGet st2.despair k := by
          have := HsubM (pushMove m (Move.execute m st)) k
          rw [hsub1, pushMove_despair, execute_despair] at this
          exact this
        have hbKeyM : dGet st.despair key ≤ dGet st2.despair key := by
          have := HsubM (pushMove m (Move.execute m st)) key
          rw [hsub1, pushMove_despair, execute_despair] at this
          exact this
        have hbKey : dGet st2.despair key ≤ max (dGet st.despair key) rs := by
          have := HsubB (pushMove m (Move.execute m st)) key
          rw [hsub1, pushMove_despair, execute_despair] at this
          exact this
        cases bb
        · show dGet st.despair k ≤ dGet (search_go b sub deep key r rest
            (Move.undo m (popMove st2))).2.despair k
          have h2 := ih (Move.undo m (popMove st2))
            (by rw [undo_despair, popMove_despair]; omega) k
          rw [undo_despair, popMove_despair] at h2
          omega
        · show dGet st.despair k ≤ dGet st2.despair k
          exact hbM
      · rw [if_neg hd]
        rw [pop_push]
        have h2 := ih (Move.undo m (Move.execute m st))
          (by rw [undo_despair, execute_despair]; exact hkey) k
        rw [undo_despair, execute_despair] at h2
        exact h2

theorem search_rec_despair_mono_bound (b : Board) :
    ∀ (r : Nat) (st : SearchState) (k : List Int),
      dGet st.despair k ≤ dGet (search_rec b r st).2.despair k ∧
      dGet (search_rec b r st).2.despair k ≤ max (dGet st.despair k) r := by
  intro r
  induction r with
  | zero => intro st k; constructor <;> simp [search_rec]
  | succ n ih =>
    intro st k
    simp only [search_rec]
    by_cases ht : dGet st.despair (robot_state st.robots) < n + 1
    · rw [if_pos ht]
      constructor
      · exact search_go_despair_mono b _ _ _ _ n
          (fun st2 k2 => (ih st2 k2).1) (fun st2 k2 => (ih st2 k2).2)
          (by omega) _ st ht k
      · exact search_go_despair_bound b _ _ _ _ n
          (fun st2 k2 => (ih st2 k2).2) (by omega) _ st k
    · rw [if_neg ht]
      constructor <;> simp

/-- C3: `search_rec` prunes — returns failure with the state untouched —
exactly when the despair table's recorded depth for the sorted
robot-position key is at least the remaining budget; despair entries never
decrease; and when a non-pruned call fails, the value written for the entry
key is exactly the remaining budget, strictly greater than the previously
stored value. -/
theorem C3_despair_pruning (b : Board) (r : Nat) (st : SearchState) :
    (search_rec b r st = (false, st) ↔
      r ≤ dGet st.despair (robot_state st.robots)) ∧
    (∀ k, dGet st.despair k ≤ dGet (search_rec b r st).2.despair k) ∧
    ((search_rec b r st).1 = false →
      dGet st.despair (robot_state st.robots) < r →
      dGet (search_rec b r st).2.despair (robot_state st.robots) = r) := by
  refine ⟨⟨?_, ?_⟩, fun k => (search_rec_despair_mono_bound b r st k).1, ?_⟩
  · intro heq
    cases r with
    | zero => omega
    | succ n =>
      by_contra hge
      have hlt : dGet st.despair (robot_state st.robots) < n + 1 := by omega
      have h1 : search_rec b (n + 1) st =
          search_go b (search_rec b n) (decide (1 < n + 1))
            (robot_state st.robots) (n + 1)
            (possible_moves b st.cells st.robots) st := by
        simp only [search_rec]
        rw [if_pos hlt]
      have hfst : (search_rec b (n + 1) st).1 = false := by rw [heq]
      rw [h1] at hfst
      have hdesp := search_go_fail_despair b _ _ _ _ _ st hfst
      rw [← h1] at hdesp
      rw [heq] at hdesp
      have hdesp2 : dGet st.despair (robot_state st.robots) = n + 1 := hdesp
      omega
  · intro hge
    cases r with
    | zero => rfl
    | succ n =>
      simp only [search_rec]
      rw [if_neg (by omega)]
  · intro hf hlt
    cases r with
    | zero => omega
    | succ n =>
      have h1 : search_rec b (n + 1) st =
          search_go b (search_rec b n) (decide (1 < n + 1))
            (robot_state st.robots) (n + 1)
            (possible_moves b st.cells st.robots) st := by
        simp only [search_rec]
        rw [if_pos hlt]
      rw [h1] at hf ⊢
      exact search_go_fail_despair b _ _ _ _ _ st hf

/-- Witness for C3: on the board whose goal sits under the robot, budget 1
fails without pruning and records depth 1 for the start configuration. -/
theorem C3_despair_pruning_witness :
    dGet (search_rec exFailBoard 1 exFailState).2.despair
      (robot_state exFailState.robots) = 1 :=
  (C3_despair_pruning exFailBoard 1 exFailState).2.2 (by decide) (by decide)

theorem and_or_zero_split (v x y : Nat) (h : v &&& (x ||| y) = 0) :
    v &&& x = 0 ∧ v &&& y = 0 := by
  have hb : ∀ i, (v.testBit i && (x.testBit i || y.testBit i)) = false := by
    intro i
    have := congrArg (fun t => t.testBit i) h
    simpa [Nat.testBit_and, Nat.testBit_or] using this
  constructor <;>
    apply Nat.eq_of_testBit_eq <;> intro i <;>
    rw [Nat.testBit_and] <;>
    have h2 := hb i <;> rw [Nat.zero_testBit] <;>
    cases hx : v.testBit i <;> cases hy : x.testBit i <;>
    cases hz : y.testBit i <;> simp_all

theorem andNot_or_cancel (x : Nat) : andNot (x ||| ROBOT) ROBOT = andNot x ROBOT := by
  apply Nat.eq_of_testBit_eq
  intro i
  rw [testBit_andNot, testBit_andNot, Nat.testBit_or, testBit_ROBOT]
  by_cases hi : 4 = i <;> simp [hi]

theorem andNot_idem (x : Nat) : andNot (andNot x ROBOT) ROBOT = andNot x ROBOT := by
  apply Nat.eq_of_testBit_eq
  intro i
  rw [testBit_andNot, testBit_andNot]
  cases x.testBit i <;> cases ROBOT.testBit i <;> rfl

theorem and_andNot_disj (v m : Nat) (h : m &&& ROBOT = 0) :
    andNot v ROBOT &&& m = v &&& m := by
  apply Nat.eq_of_testBit_eq
  intro i
  rw [Nat.testBit_and, Nat.testBit_and, testBit_andNot]
  have h2 : (m.testBit i && ROBOT.testBit i) = false := by
    have := congrArg (fun t => t.testBit i) h
    simpa [Nat.testBit_and] using this
  cases hv : v.testBit i <;> cases hm : m.testBit i <;>
    cases hr : ROBOT.testBit i <;> simp_all

theorem and_or_disj (v m : Nat) (h : m &&& ROBOT = 0) :
    (v ||| ROBOT) &&& m = v &&& m := by
  apply Nat.eq_of_testBit_eq
  intro i
  rw [Nat.testBit_and, Nat.testBit_and, Nat.testBit_or]
  have h2 : (m.testBit i && ROBOT.testBit i) = false := by
    have := congrArg (fun t => t.testBit i) h
    simpa [Nat.testBit_and] using this
  cases hv : v.testBit i <;> cases hm : m.testBit i <;>
    cases hr : ROBOT.testBit i <;> simp_all

theorem testBit_high_false {v : Nat} (h : v < 256) {i : Nat} (hi : 8 ≤ i) :
    v.testBit i = false := by
  apply Nat.testBit_lt_two_pow
  calc v < 256 := h
  _ = 2 ^ 8 := by norm_num
  _ ≤ 2 ^ i := Nat.pow_le_pow_right (by norm_num) hi

theorem andNot_lt_256 {v : Nat} (h : v < 256) : andNot v ROBOT < 256 := by
  have h2 : (256 : Nat) = 2 ^ 8 := by norm_num
  rw [h2]
  apply Nat.lt_pow_two_of_testBit
  intro i hi
  rw [testBit_andNot, testBit_high_false h hi]
  rfl

theorem or_ROBOT_lt_256 {v : Nat} (h : v < 256) : v ||| ROBOT < 256 := by
  have h2 : (256 : Nat) = 2 ^ 8 := by norm_num
  rw [h2]
  apply Nat.lt_pow_two_of_testBit
  intro i hi
  rw [Nat.testBit_or, testBit_high_false h hi, testBit_ROBOT]
  simp
  omega

theorem trace_ok_valid (b : Board) (cells : List Nat) (hW : 1 ≤ b.width) :
    ∀ (fuel : Nat) (p : Int) (d k : Nat) (q : Int),
      0 ≤ p → p < (b.width : Int) * b.height →
      trace b cells fuel p d k = TraceResult.ok q →
      0 ≤ q ∧ q < (b.width : Int) * b.height := by
  intro fuel
  induction fuel with
  | zero => intro p d k q _ _ h; exact TraceResult.noConfusion h
  | succ n ih =>
    intro p d k q hp0 hplt h
    rw [trace] at h
    rcases hF : FLIPDIRS d with _ | flipped
    · rw [hF] at h
      exact TraceResult.noConfusion h
    · rw [hF] at h
      simp only at h
      by_cases h1 : neighbour b p d < 0 ∨
          board_has cells (neighbour b p d) (ROBOT ||| BLOCK ||| flipped) ≠ 0
      · rw [if_pos h1] at h
        obtain rfl : p = q := TraceResult.ok.inj h
        exact ⟨hp0, hplt⟩
      · rw [if_neg h1] at h
        push_neg at h1
        obtain ⟨hq0, hblock⟩ := h1
        by_cases h2 : board_has cells (neighbour b p d) BOUNCER ≠ 0
        · rw [if_pos h2] at h
          by_cases h3 : k ≥ b.max_bounces
          · rw [if_pos h3] at h
            exact TraceResult.noConfusion h
          · rw [if_neg h3] at h
            rcases hG : FLIPDIRS (board_has cells (neighbour b p d)
                (andNot 255 (BOUNCER ||| d))) with _ | nd
            · rw [hG] at h
              exact TraceResult.noConfusion h
            · rw [hG] at h
              exact ih _ _ _ _ hq0 (neighbour_lt b d hW hplt hq0) h
        · rw [if_neg h2] at h
          exact ih _ _ _ _ hq0 (neighbour_lt b d hW hplt hq0) h

theorem trace_ok_stop (b : Board) (cells : List Nat) :
    ∀ (fuel : Nat) (p : Int) (d k : Nat) (q : Int),
      trace b cells fuel p d k = TraceResult.ok q →
      q = p ∨ board_has cells q ROBOT = 0 := by
  intro fuel
  induction fuel with
  | zero => intro p d k q h; exact TraceResult.noConfusion h
  | succ n ih =>
    intro p d k q h
    rw [trace] at h
    rcases hF : FLIPDIRS d with _ | flipped
    · rw [hF] at h
      exact TraceResult.noConfusion h
    · rw [hF] at h
      simp only at h
      by_cases h1 : neighbour b p d < 0 ∨
          board_has cells (neighbour b p d) (ROBOT ||| BLOCK ||| flipped) ≠ 0
      · rw [if_pos h1] at h
        exact Or.inl (TraceResult.ok.inj h).symm
      · rw [if_neg h1] at h
        push_neg at h1
        obtain ⟨hq0, hblock⟩ := h1
        have hnR : board_has cells (neighbour b p d) ROBOT = 0 := by
          unfold board_has at hblock ⊢
          exact (and_or_zero_split _ _ _
            ((and_or_zero_split _ _ _ hblock).1)).1
        by_cases h2 : board_has cells (neighbour b p d) BOUNCER ≠ 0
        · rw [if_pos h2] at h
          by_cases h3 : k ≥ b.max_bounces
          · rw [if_pos h3] at h
            exact TraceResult.noConfusion h
          · rw [if_neg h3] at h
            rcases hG : FLIPDIRS (board_has cells (neighbour b p d)
                (andNot 255 (BOUNCER ||| d))) with _ | nd
            · rw [hG] at h
              exact TraceResult.noConfusion h
            · rw [hG] at h
              rcases ih _ _ _ _ h with heq | hok
              · exact Or.inr (heq ▸ hnR)
              · exact Or.inr hok
        · rw [if_neg h2] at h
          rcases ih _ _ _ _ h with heq | hok
          · exact Or.inr (heq ▸ hnR)
          · exact Or.inr hok

theorem getD_eq_getElem {α} (l : List α) (i : Nat) (d : α) (h : i < l.length) :
    l.getD i d = l[i] := by
  rw [List.getD_eq_getElem?_getD, List.getElem?_eq_getElem h]
  rfl

theorem nodup_set (l : List Int) (i : Nat) (a : Int) (hi : i < l.length)
    (hn : l.Nodup) (ha : a ∉ l) : (l.set i a).Nodup := by
  rw [List.nodup_iff_count_le_one] at hn ⊢
  intro x
  rw [List.count_set a x l i hi]
  have hx := hn x
  by_cases hxa : a = x
  · subst hxa
    have h0 : List.count a l = 0 := List.count_eq_zero.2 ha
    simp [h0]
  · have hne : (a == x) = false := beq_eq_false_iff_ne.2 hxa
    simp only [hne, Bool.false_eq_true, if_false]
    split_ifs <;> omega

theorem move_facts (b : Board) (st : SearchState) (hc : Consistent b st)
    (m : Move) (hm : m ∈ possible_moves b st.cells st.robots) :
    m.robot < st.robots.length ∧
    st.robots.getD m.robot 0 = m.start_position ∧
    0 ≤ m.start_position ∧ m.start_position.toNat < st.cells.length ∧
    0 ≤ m.stop_position ∧ m.stop_position.toNat < st.cells.length ∧
    cellGet st.cells m.start_position &&& ROBOT ≠ 0 ∧
    cellGet st.cells m.stop_position &&& ROBOT = 0 ∧
    m.stop_position ≠ m.start_position := by
  obtain ⟨hW, hH, hlen, hrange, hnodup, hiff, hlt, hclean⟩ := hc
  rw [possible_moves_mem] at hm
  obtain ⟨h1, h2, h3, h4, h5⟩ := hm
  have hmem : st.robots.getD m.robot 0 ∈ st.robots := by
    rw [getD_eq_getElem _ _ _ h1]
    exact List.getElem_mem h1
  obtain ⟨hs0, hsl⟩ := hrange _ hmem
  have hcast : ((b.width * b.height : Nat) : Int) = (b.width : Int) * b.height := by
    push_cast
    ring
  have hslt : st.robots.getD m.robot 0 < (b.width : Int) * b.height := by
    rw [hlen] at hsl
    omega
  have hW1 : 1 ≤ b.width := hW
  obtain ⟨ht0, htlt⟩ := trace_ok_valid b st.cells hW1 (trace_fuel b) _
    m.direction 0 m.stop_position hs0 hslt h4
  have htl : m.stop_position.toNat < st.cells.length := by
    rw [hlen]
    omega
  have hbit : cellGet st.cells m.start_position &&& ROBOT ≠ 0 := by
    have hi2 := (hiff (st.robots.getD m.robot 0).toNat hsl).2
    rw [Int.toNat_of_nonneg hs0] at hi2
    rw [h3]
    exact hi2 hmem
  have hstopbit : cellGet st.cells m.stop_position &&& ROBOT = 0 := by
    rcases trace_ok_stop b st.cells (trace_fuel b) _ m.direction 0
        m.stop_position h4 with heq | hok
    · exact absurd heq h5
    · exact hok
  refine ⟨h1, h3.symm, ?_, ?_, ht0, htl, hbit, hstopbit, ?_⟩
  · rw [h3]
    exact hs0
  · rw [h3]
    exact hsl
  · rw [h3]
    exact h5

theorem cellGet_natCast (cs : List Nat) (j : Nat) :
    cellGet cs (j : Int) = cs.getD j 0 := by
  unfold cellGet
  rw [Int.toNat_natCast]

theorem stripRobots_getD (cs : List Nat) (j : Nat) (h : j < cs.length) :
    (stripRobots cs).getD j 0 = andNot (cs.getD j 0) ROBOT := by
  unfold stripRobots
  rw [getD_eq_getElem _ _ _ (by simpa using h), getD_eq_getElem _ _ _ h]
  rw [List.getElem_map]

theorem execute_consistent (b : Board) (st : SearchState) (hc : Consistent b st)
    (m : Move) (hm : m ∈ possible_moves b st.cells st.robots) :
    Consistent b (Move.execute m st) ∧
    stripRobots (Move.execute m st).cells = stripRobots st.cells := by
  obtain ⟨hi, hgetD, hs0, hsl, ht0, htl, hsbit, htbit, hne⟩ :=
    move_facts b st hc m hm
  obtain ⟨hW, hH, hlen, hrange, hnodup, hiff, hlt, hclean⟩ := hc
  have hNe : m.stop_position.toNat ≠ m.start_position.toNat :=
    toNat_ne_of_ne ht0 hs0 hne
  have hcells : (Move.execute m st).cells =
      (st.cells.set m.start_position.toNat
        (andNot (cellGet st.cells m.start_position) ROBOT)).set
        m.stop_position.toNat (cellGet st.cells m.stop_position ||| ROBOT) := by
    show move_cells st.cells st.robots m.robot m.stop_position = _
    unfold move_cells board_add board_remove
    rw [hgetD]
    rw [cellGet_set_ne _ _ _ _ (Ne.symm hNe)]
  have hrobots : (Move.execute m st).robots =
      st.robots.set m.robot m.stop_position := rfl
  have hlen2 : (Move.execute m st).cells.length = st.cells.length := by
    rw [hcells]
    simp [List.length_set]
  have hmem : m.start_position ∈ st.robots := by
    rw [← hgetD, getD_eq_getElem _ _ _ hi]
    exact List.getElem_mem hi
  have hridx : st.robots[m.robot] = m.start_position := by
    rw [← getD_eq_getElem _ _ _ hi, hgetD]
  have hnotin : m.stop_position ∉ st.robots := by
    intro hmemT
    have h2 := (hiff m.stop_position.toNat htl).2
    rw [Int.toNat_of_nonneg ht0] at h2
    exact (h2 hmemT) htbit
  have hcount1 : List.count m.start_position st.robots = 1 := by
    have hle := List.nodup_iff_count_le_one.1 hnodup m.start_position
    have hge := List.count_pos_iff.2 hmem
    omega
  have hsnotin : m.start_position ∉ st.robots.set m.robot m.stop_position := by
    intro hmemS
    have := List.count_pos_iff.2 hmemS
    rw [List.count_set m.stop_position m.start_position st.robots m.robot hi]
      at this
    rw [hridx] at this
    simp only [beq_self_eq_true, if_true] at this
    have hne2 : (m.stop_position == m.start_position) = false :=
      beq_eq_false_iff_ne.2 hne
    rw [hne2] at this
    simp at this
    omega
  have hcGet : ∀ j : Nat, j < st.cells.length → j ≠ m.start_position.toNat →
      j ≠ m.stop_position.toNat →
      cellGet (Move.execute m st).cells (j : Int) = cellGet st.cells (j : Int) := by
    intro j hj hjs hjt
    rw [hcells, cellGet_natCast, cellGet_natCast]
    rw [getD_set_ne _ _ _ _ _ (fun hx => hjt hx.symm)]
    rw [getD_set_ne _ _ _ _ _ (fun hx => hjs hx.symm)]
  have hcGetS : cellGet (Move.execute m st).cells (m.start_position.toNat : Int) =
      andNot (cellGet st.cells m.start_position) ROBOT := by
    rw [hcells, cellGet_natCast]
    rw [getD_set_ne _ _ _ _ _ hNe]
    rw [getD_set_self _ _ _ _ hsl]
  have hcGetT : cellGet (Move.execute m st).cells (m.stop_position.toNat : Int) =
      cellGet st.cells m.stop_position ||| ROBOT := by
    rw [hcells, cellGet_natCast]
    rw [getD_set_self _ _ _ _ (by simpa using htl)]
  have hmemT : m.stop_position ∈ st.robots.set m.robot m.stop_position :=
    List.mem_set st.robots m.robot hi m.stop_position
  have hmemOther : ∀ x : Int, x ≠ m.start_position → x ≠ m.stop_position →
      (x ∈ st.robots.set m.robot m.stop_position ↔ x ∈ st.robots) := by
    intro x hxs hxt
    have hcnt : List.count x (st.robots.set m.robot m.stop_position) =
        List.count x st.robots := by
      rw [List.count_set m.stop_position x st.robots m.robot hi, hridx]
      rw [beq_eq_false_iff_ne.2 (fun hx => hxs hx.symm)]
      rw [beq_eq_false_iff_ne.2 (fun hx => hxt hx.symm)]
      simp
    rw [← List.count_pos_iff, ← List.count_pos_iff, hcnt]
  constructor
  · refine ⟨hW, hH, ?_, ?_, ?_, ?_, ?_, ?_⟩
    · rw [hlen2]
      exact hlen
    · intro p hp
      rw [hrobots] at hp
      rcases List.mem_or_eq_of_mem_set hp with hp2 | hp2
      · obtain ⟨ha, hb⟩ := hrange p hp2
        exact ⟨ha, by rwa [hlen2]⟩
      · subst hp2
        exact ⟨ht0, by rwa [hlen2]⟩
    · rw [hrobots]
      exact nodup_set st.robots m.robot m.stop_position hi hnodup hnotin
    · intro j hj
      rw [hlen2] at hj
      rw [hrobots]
      by_cases hjt : j = m.stop_position.toNat
      · subst hjt
        rw [hcGetT]
        constructor
        · intro _
          rw [Int.toNat_of_nonneg ht0]
          exact hmemT
        · intro _
          exact and_or_ROBOT _
      · by_cases hjs : j = m.start_position.toNat
        · subst hjs
          rw [hcGetS]
          constructor
          · intro hx
            exact absurd (andNot_and_ROBOT _) hx
          · intro hx
            rw [Int.toNat_of_nonneg hs0] at hx
            exact absurd hx hsnotin
        · rw [hcGet j hj hjs hjt]
          rw [hiff j hj]
          refine (hmemOther (j : Int) ?_ ?_).symm
          · intro hx
            apply hjs
            omega
          · intro hx
            apply hjt
            omega
    · intro j hj
      rw [hlen2] at hj
      by_cases hjt : j = m.stop_position.toNat
      · subst hjt
        rw [hcGetT]
        apply or_ROBOT_lt_256
        have := hlt m.stop_position.toNat htl
        rwa [Int.toNat_of_nonneg ht0] at this
      · by_cases hjs : j = m.start_position.toNat
        · subst hjs
          rw [hcGetS]
          apply andNot_lt_256
          have := hlt m.start_position.toNat hsl
          rwa [Int.toNat_of_nonneg hs0] at this
        · rw [hcGet j hj hjs hjt]
          exact hlt j hj
    · intro j hj
      rw [hlen2] at hj
      by_cases hjt : j = m.stop_position.toNat
      · subst hjt
        rw [hcGetT]
        rw [and_or_disj _ _ (by decide), and_or_disj _ _ (by decide),
          and_or_disj _ _ (by decide)]
        have := hclean m.stop_position.toNat htl
        rwa [Int.toNat_of_nonneg ht0] at this
      · by_cases hjs : j = m.start_position.toNat
        · subst hjs
          rw [hcGetS]
          rw [and_andNot_disj _ _ (by decide), and_andNot_disj _ _ (by decide),
            and_andNot_disj _ _ (by decide)]
          have := hclean m.start_position.toNat hsl
          rwa [Int.toNat_of_nonneg hs0] at this
        · rw [hcGet j hj hjs hjt]
          exact hclean j hj
  · rw [hcells]
    unfold stripRobots
    rw [List.map_set, List.map_set]
    rw [andNot_or_cancel, andNot_idem]
    show ((stripRobots st.cells).set m.start_position.toNat
        (andNot (cellGet st.cells m.start_position) ROBOT)).set
        m.stop_position.toNat (andNot (cellGet st.cells m.stop_position) ROBOT)
      = stripRobots st.cells
    have hstripS : (stripRobots st.cells).set m.start_position.toNat
        (andNot (cellGet st.cells m.start_position) ROBOT) =
        stripRobots st.cells := by
      have hv := stripRobots_getD st.cells m.start_position.toNat hsl
      rw [show cellGet st.cells m.start_position =
        st.cells.getD m.start_position.toNat 0 from rfl, ← hv]
      exact set_getD_self _ _ _ (by simpa [stripRobots] using hsl)
    rw [hstripS]
    have hv := stripRobots_getD st.cells m.stop_position.toNat htl
    rw [show cellGet st.cells m.stop_position =
      st.cells.getD m.stop_position.toNat 0 from rfl, ← hv]
    exact set_getD_self _ _ _ (by simpa [stripRobots] using htl)

theorem execute_restore (b : Board) (st : SearchState) (hc : Consistent b st)
    (m : Move) (hm : m ∈ possible_moves b st.cells st.robots) :
    Move.undo m (Move.execute m st) = st := by
  obtain ⟨hi, hgetD, hs0, hsl, ht0, htl, hsbit, htbit, hne⟩ :=
    move_facts b st hc m hm
  exact execute_undo_exact st m hi hgetD hs0 hsl ht0 htl hsbit (Or.inr htbit)

theorem consistent_congr (b : Board) (st1 st2 : SearchState)
    (hcells : st2.cells = st1.cells) (hrobots : st2.robots = st1.robots)
    (hc : Consistent b st1) : Consistent b st2 := by
  unfold Consistent at *
  rw [hcells, hrobots]
  exact hc

theorem applyMoves_cons (X : SearchState) (m : Move) (l : List Move) :
    applyMoves X (m :: l) = applyMoves (Move.execute m X) l := rfl

theorem applyMoves_congr (l : List Move) :
    ∀ (X Y : SearchState), X.cells = Y.cells → X.robots = Y.robots →
    (applyMoves X l).cells = (applyMoves Y l).cells ∧
    (applyMoves X l).robots = (applyMoves Y l).robots := by
  induction l with
  | nil => intro X Y hc hr; exact ⟨hc, hr⟩
  | cons m rest ih =>
    intro X Y hc hr
    rw [applyMoves_cons, applyMoves_cons]
    apply ih
    · show move_cells X.cells X.robots m.robot m.stop_position =
        move_cells Y.cells Y.robots m.robot m.stop_position
      rw [hc, hr]
    · show move_robots X.robots m.robot m.stop_position =
        move_robots Y.robots m.robot m.stop_position
      rw [hr]

theorem winsIn_succ_iff (b : Board) (cells : List Nat) (robots : List Int)
    (n : Nat) :
    winsIn b cells robots (n + 1) = true ↔
      ∃ m ∈ possible_moves b cells robots,
        goal_reached b (move_cells cells robots m.robot m.stop_position) = true ∨
        winsIn b (move_cells cells robots m.robot m.stop_position)
          (move_robots robots m.robot m.stop_position) n = true := by
  rw [winsIn]
  rw [List.any_eq_true]
  constructor
  · rintro ⟨m, hm, hp⟩
    rw [Bool.or_eq_true] at hp
    exact ⟨m, hm, hp⟩
  · rintro ⟨m, hm, hp⟩
    refine ⟨m, hm, ?_⟩
    rw [Bool.or_eq_true]
    exact hp

theorem search_go_fail_frame (b : Board) (sub : SearchState → Bool × SearchState)
    (deep : Bool) (key : List Int) (r : Nat)
    (HsubF : ∀ st, Consistent b st → (sub st).1 = false →
      (sub st).2.cells = st.cells ∧ (sub st).2.robots = st.robots) :
    ∀ (ms : List Move) (st : SearchState), Consistent b st →
      (∀ m ∈ ms, m ∈ possible_moves b st.cells st.robots) →
      (search_go b sub deep key r ms st).1 = false →
      (search_go b sub deep key r ms st).2.cells = st.cells ∧
      (search_go b sub deep key r ms st).2.robots = st.robots := by
  intro ms
  induction ms with
  | nil => intro st _ _ _; exact ⟨rfl, rfl⟩
  | cons m rest ih =>
    intro st hc hms h
    have hm := hms m (List.mem_cons_self m rest)
    have hrt := execute_restore b st hc m hm
    have hx := (execute_consistent b st hc m hm).1
    have hcons1 : Consistent b (pushMove m (Move.execute m st)) :=
      consistent_congr b _ _ rfl rfl hx
    simp only [search_go] at h ⊢
    by_cases hg : goal_reached b (pushMove m (Move.execute m st)).cells = true
    · rw [if_pos hg] at h
      exact Bool.noConfusion h
    · rw [if_neg hg] at h ⊢
      by_cases hd : deep = true
      · rw [if_pos hd] at h ⊢
        rcases hsub1 : sub (pushMove m (Move.execute m st)) with ⟨bb, st2⟩
        rw [hsub1] at h
        cases bb
        · show (search_go b sub deep key r rest
              (Move.undo m (popMove st2))).2.cells = st.cells ∧
            (search_go b sub deep key r rest
              (Move.undo m (popMove st2))).2.robots = st.robots
          have h2 : (search_go b sub deep key r rest
              (Move.undo m (popMove st2))).1 = false := h
          have hsub2 := HsubF _ hcons1 (by rw [hsub1] :
            (sub (pushMove m (Move.execute m st))).1 = false)
          rw [hsub1] at hsub2
          obtain ⟨hsub2c, hsub2r⟩ := hsub2
          have hCc : (Move.undo m (popMove st2)).cells = st.cells := by
            calc (Move.undo m (popMove st2)).cells
                = move_cells st2.cells st2.robots m.robot m.start_position := rfl
              _ = move_cells (pushMove m (Move.execute m st)).cells
                  (pushMove m (Move.execute m st)).robots m.robot
                  m.start_position := by rw [hsub2c, hsub2r]
              _ = (Move.undo m (Move.execute m st)).cells := rfl
              _ = st.cells := by rw [hrt]
          have hCr : (Move.undo m (popMove st2)).robots = st.robots := by
            calc (Move.undo m (popMove st2)).robots
                = move_robots st2.robots m.robot m.start_position := rfl
              _ = move_robots (pushMove m (Move.execute m st)).robots m.robot
                  m.start_position := by rw [hsub2r]
              _ = (Move.undo m (Move.execute m st)).robots := rfl
              _ = st.robots := by rw [hrt]
          have hcons2 : Consistent b (Move.undo m (popMove st2)) :=
            consistent_congr b st _ hCc hCr hc
          have hms2 : ∀ m2 ∈ rest, m2 ∈ possible_moves b
              (Move.undo m (popMove st2)).cells
              (Move.undo m (popMove st2)).robots := by
            intro m2 hm2
            rw [hCc, hCr]
            exact hms m2 (List.mem_cons_of_mem m hm2)
          obtain ⟨ha, hb⟩ := ih _ hcons2 hms2 h2
          exact ⟨ha.trans hCc, hb.trans hCr⟩
        · exact Bool.noConfusion h
      · rw [if_neg hd] at h ⊢
        rw [pop_push] at h ⊢
        rw [hrt] at h ⊢
        exact ih _ hc (fun m2 hm2 => hms m2 (List.mem_cons_of_mem m hm2)) h

theorem search_rec_fail_frame (b : Board) :
    ∀ (r : Nat) (st : SearchState), Consistent b st →
      (search_rec b r st).1 = false →
      (search_rec b r st).2.cells = st.cells ∧
      (search_rec b r st).2.robots = st.robots := by
  intro r
  induction r with
  | zero => intro st _ _; exact ⟨rfl, rfl⟩
  | succ n ih =>
    intro st hc h
    simp only [search_rec] at h ⊢
    by_cases ht : dGet st.despair (robot_state st.robots) < n + 1
    · rw [if_pos ht] at h ⊢
      exact search_go_fail_frame b _ _ _ _ (fun st2 hc2 => ih st2 hc2) _ st hc
        (fun m2 hm2 => hm2) h
    · rw [if_neg ht]
      exact ⟨rfl, rfl⟩

theorem search_go_succ_replay (b : Board)
    (sub : SearchState → Bool × SearchState) (deep : Bool) (key : List Int)
    (r rsub : Nat)
    (HsubF : ∀ st, Consistent b st → (sub st).1 = false →
      (sub st).2.cells = st.cells ∧ (sub st).2.robots = st.robots)
    (HsubFm : ∀ st, (sub st).1 = false → (sub st).2.moves = st.moves)
    (HsubT : ∀ st, Consistent b st → (sub st).1 = true →
      ∃ suffix : List Move, (sub st).2.moves = st.moves ++ suffix ∧
        (sub st).2.cells = (applyMoves st suffix).cells ∧
        (sub st).2.robots = (applyMoves st suffix).robots ∧
        1 ≤ suffix.length ∧ suffix.length ≤ rsub ∧
        winsIn b st.cells st.robots suffix.length = true)
    (hr1 : 1 ≤ r) (hrsub : deep = true → rsub + 1 ≤ r) :
    ∀ (ms : List Move) (st : SearchState), Consistent b st →
      (∀ m ∈ ms, m ∈ possible_moves b st.cells st.robots) →
      (search_go b sub deep key r ms st).1 = true →
      ∃ suffix : List Move,
        (search_go b sub deep key r ms st).2.moves = st.moves ++ suffix ∧
        (search_go b sub deep key r ms st).2.cells =
          (applyMoves st suffix).cells ∧
        (search_go b sub deep key r ms st).2.robots =
          (applyMoves st suffix).robots ∧
        1 ≤ suffix.length ∧ suffix.length ≤ r ∧
        winsIn b st.cells st.robots suffix.length = true := by
  intro ms
  induction ms with
  | nil => intro st _ _ h; exact Bool.noConfusion h
  | cons m rest ih =>
    intro st hc hms h
    have hm := hms m (List.mem_cons_self m rest)
    have hrt := execute_restore b st hc m hm
    have hx := (execute_consistent b st hc m hm).1
    have hcons1 : Consistent b (pushMove m (Move.execute m st)) :=
      consistent_congr b _ _ rfl rfl hx
    simp only [search_go] at h ⊢
    by_cases hg : goal_reached b (pushMove m (Move.execute m st)).cells = true
    · rw [if_pos hg] at h ⊢
      refine ⟨[m], rfl, rfl, rfl, ?_, ?_, ?_⟩
      · simp
      · simpa using hr1
      · simp only [List.length_singleton]
        rw [winsIn_succ_iff]
        exact ⟨m, hm, Or.inl hg⟩
    · rw [if_neg hg] at h ⊢
      by_cases hd : deep = true
      · rw [if_pos hd] at h ⊢
        rcases hsub1 : sub (pushMove m (Move.execute m st)) with ⟨bb, st2⟩
        rw [hsub1] at h
        cases bb
        · -- the recursive call failed; continue with the rest of the moves
          show ∃ suffix,
            (search_go b sub deep key r rest
              (Move.undo m (popMove st2))).2.moves = st.moves ++ suffix ∧
            (search_go b sub deep key r rest
              (Move.undo m (popMove st2))).2.cells =
              (applyMoves st suffix).cells ∧
            (search_go b sub deep key r rest
              (Move.undo m (popMove st2))).2.robots =
              (applyMoves st suffix).robots ∧
            1 ≤ suffix.length ∧ suffix.length ≤ r ∧
            winsIn b st.cells st.robots suffix.length = true
          have h2 : (search_go b sub deep key r rest
              (Move.undo m (popMove st2))).1 = true := h
          have hsub2 := HsubF _ hcons1 (by rw [hsub1] :
            (sub (pushMove m (Move.execute m st))).1 = false)
          rw [hsub1] at hsub2
          obtain ⟨hsub2c, hsub2r⟩ := hsub2
          have hsub2m := HsubFm _ (by rw [hsub1] :
            (sub (pushMove m (Move.execute m st))).1 = false)
          rw [hsub1] at hsub2m
          have hCc : (Move.undo m (popMove st2)).cells = st.cells := by
            calc (Move.undo m (popMove st2)).cells
                = move_cells st2.cells st2.robots m.robot m.start_position := rfl
              _ = move_cells (pushMove m (Move.execute m st)).cells
                  (pushMove m (Move.execute m st)).robots m.robot
                  m.start_position := by rw [hsub2c, hsub2r]
              _ = (Move.undo m (Move.execute m st)).cells := rfl
              _ = st.cells := by rw [hrt]
          have hCr : (Move.undo m (popMove st2)).robots = st.robots := by
            calc (Move.undo m (popMove st2)).robots
                = move_robots st2.robots m.robot m.start_position := rfl
              _ = move_robots (pushMove m (Move.execute m st)).robots m.robot
                  m.start_position := by rw [hsub2r]
              _ = (Move.undo m (Move.execute m st)).robots := rfl
              _ = st.robots := by rw [hrt]
          have hCm : (Move.undo m (popMove st2)).moves = st.moves := by
            show st2.moves.dropLast = st.moves
            rw [hsub2m]
            show ((Move.execute m st).moves ++ [m]).dropLast = st.moves
            rw [execute_moves]
            exact List.dropLast_concat
          have hcons2 : Consistent b (Move.undo m (popMove st2)) :=
            consistent_congr b st _ hCc hCr hc
          have hms2 : ∀ m2 ∈ rest, m2 ∈ possible_moves b
              (Move.undo m (popMove st2)).cells
              (Move.undo m (popMove st2)).robots := by
            intro m2 hm2
            rw [hCc, hCr]
            exact hms m2 (List.mem_cons_of_mem m hm2)
          obtain ⟨suffix, hmv, hcl, hrb, hl1, hl2, hwin⟩ := ih _ hcons2 hms2 h2
          refine ⟨suffix, ?_, ?_, ?_, hl1, hl2, ?_⟩
          · rw [hmv, hCm]
          · rw [hcl]
            exact (applyMoves_congr suffix _ _ hCc hCr).1
          · rw [hrb]
            exact (applyMoves_congr suffix _ _ hCc hCr).2
          · rw [← hCc, ← hCr]
            exact hwin
        · -- the recursive call succeeded
          show ∃ suffix, st2.moves = st.moves ++ suffix ∧
            st2.cells = (applyMoves st suffix).cells ∧
            st2.robots = (applyMoves st suffix).robots ∧
            1 ≤ suffix.length ∧ suffix.length ≤ r ∧
            winsIn b st.cells st.robots suffix.length = true
          have hsubT := HsubT _ hcons1 (by rw [hsub1] :
            (sub (pushMove m (Move.execute m st))).1 = true)
          rw [hsub1] at hsubT
          obtain ⟨suffix2, hmv, hcl, hrb, hl1, hl2, hwin⟩ := hsubT
          have hlen1 : 1 ≤ (m :: suffix2).length := by
            simp only [List.length_cons]
            omega
          have hlenr : (m :: suffix2).length ≤ r := by
            have h9 := hrsub hd
            simp only [List.length_cons]
            omega
          refine ⟨m :: suffix2, ?_, ?_, ?_, hlen1, hlenr, ?_⟩
          · rw [hmv]
            show ((Move.execute m st).moves ++ [m]) ++ suffix2 =
              st.moves ++ (m :: suffix2)
            rw [execute_moves, List.append_assoc]
            rfl
          · rw [hcl, applyMoves_cons]
            exact (applyMoves_congr suffix2 (pushMove m (Move.execute m st))
              (Move.execute m st) rfl rfl).1
          · rw [hrb, applyMoves_cons]
            exact (applyMoves_congr suffix2 (pushMove m (Move.execute m st))
              (Move.execute m st) rfl rfl).2
          · simp only [List.length_cons]
            rw [winsIn_succ_iff]
            exact ⟨m, hm, Or.inr hwin⟩
      · rw [if_neg hd] at h ⊢
        rw [pop_push] at h ⊢
        rw [hrt] at h ⊢
        exact ih _ hc (fun m2 hm2 => hms m2 (List.mem_cons_of_mem m hm2)) h

theorem search_rec_succ_replay (b : Board) :
    ∀ (r : Nat) (st : SearchState), Consistent b st →
      (search_rec b r st).1 = true →
      ∃ suffix : List Move,
        (search_rec b r st).2.moves = st.moves ++ suffix ∧
        (search_rec b r st).2.cells = (applyMoves st suffix).cells ∧
        (search_rec b r st).2.robots = (applyMoves st suffix).robots ∧
        1 ≤ suffix.length ∧ suffix.length ≤ r ∧
        winsIn b st.cells st.robots suffix.length = true := by
  intro r
  induction r with
  | zero => intro st _ h; exact Bool.noConfusion h
  | succ n ih =>
    intro st hc h
    simp only [search_rec] at h ⊢
    by_cases ht : dGet st.despair (robot_state st.robots) < n + 1
    · rw [if_pos ht] at h ⊢
      exact search_go_succ_replay b _ _ _ _ n
        (fun st2 hc2 => search_rec_fail_frame b n st2 hc2)
        (search_rec_fail_moves b n) (fun st2 hc2 => ih st2 hc2)
        (by omega) (fun _ => by omega) _ st hc (fun m2 hm2 => hm2) h
    · rw [if_neg ht] at h
      exact Bool.noConfusion h

/-- C4: on a consistent state, whenever `search_rec` returns failure the cell
bitmask array and every robot position (and the move path) are identical to
their values at entry; on a success return the final state is exactly the
entry state with the winning move suffix applied (and left applied). -/
theorem C4_stack_discipline (b : Board) (r : Nat) (st : SearchState)
    (hc : Consistent b st) :
    ((search_rec b r st).1 = false →
      (search_rec b r st).2.cells = st.cells ∧
      (search_rec b r st).2.robots = st.robots ∧
      (search_rec b r st).2.moves = st.moves) ∧
    ((search_rec b r st).1 = true →
      ∃ suffix : List Move,
        (search_rec b r st).2.moves = st.moves ++ suffix ∧
        (search_rec b r st).2.cells = (applyMoves st suffix).cells ∧
        (search_rec b r st).2.robots = (applyMoves st suffix).robots) := by
  constructor
  · intro h
    obtain ⟨h1, h2⟩ := search_rec_fail_frame b r st hc h
    exact ⟨h1, h2, search_rec_fail_moves b r st h⟩
  · intro h
    obtain ⟨suffix, h1, h2, h3, _, _, _⟩ := search_rec_succ_replay b r st hc h
    exact ⟨suffix, h1, h2, h3⟩

/-- Witness for C4: a failing call on the goal-under-robot board restores the
cells, robots and move list. -/
theorem C4_stack_discipline_witness :
    (search_rec exFailBoard 1 exFailState).2.cells = exFailState.cells ∧
    (search_rec exFailBoard 1 exFailState).2.robots = exFailState.robots ∧
    (search_rec exFailBoard 1 exFailState).2.moves = exFailState.moves :=
  (C4_stack_discipline exFailBoard 1 exFailState (by decide)).1 (by decide)

theorem flipdirs_dir : ∀ d ∈ DIRECTIONS,
    FLIPDIRS d ≠ none ∧ (FLIPDIRS d).getD 0 ∈ DIRECTIONS := by decide

theorem residual_dir : ∀ v < 256,
    (v &&& 15 ∈ BOUNCER_PAIRS ∧ v &&& GOAL = 0 ∧ v &&& ROBOT = 0 ∧
      v &&& BLOCK = 0) →
    (v &&& 4 = 0 → v &&& andNot 255 (BOUNCER ||| 1) ∈ DIRECTIONS) ∧
    (v &&& 8 = 0 → v &&& andNot 255 (BOUNCER ||| 2) ∈ DIRECTIONS) ∧
    (v &&& 1 = 0 → v &&& andNot 255 (BOUNCER ||| 4) ∈ DIRECTIONS) ∧
    (v &&& 2 = 0 → v &&& andNot 255 (BOUNCER ||| 8) ∈ DIRECTIONS) := by decide

theorem dist_le (b : Board) (q : Int) (d : Nat) (h0 : 0 ≤ q)
    (hlt : q < (b.width : Int) * b.height) :
    straight_dist b q d ≤ b.width * b.height := by
  have hcast : ((b.width * b.height : Nat) : Int) = (b.width : Int) * b.height := by
    push_cast
    ring
  unfold straight_dist
  split_ifs <;> omega

theorem dist_step (b : Board) (p : Int) (d : Nat) (hW : 1 ≤ b.width)
    (hd : d ∈ DIRECTIONS) (hp0 : 0 ≤ p)
    (hplt : p < (b.width : Int) * b.height)
    (hq : 0 ≤ neighbour b p d) :
    straight_dist b (neighbour b p d) d < straight_dist b p d := by
  have hcast : ((b.width * b.height : Nat) : Int) = (b.width : Int) * b.height := by
    push_cast
    ring
  have hW1 : (1 : Int) ≤ b.width := by exact_mod_cast hW
  simp [DIRECTIONS, NORTH, EAST, SOUTH, WEST] at hd
  rcases hd with hd | hd | hd | hd <;> subst hd <;>
    simp only [straight_dist, NORTH, EAST, SOUTH, WEST] <;>
    norm_num <;>
    simp only [neighbour, NORTH, EAST, SOUTH, WEST] at hq ⊢ <;>
    norm_num at hq ⊢ <;>
    split_ifs at hq ⊢ <;> omega

theorem residual_dir_mem (v d : Nat) (hv : v < 256) (hd : d ∈ DIRECTIONS)
    (hp : v &&& 15 ∈ BOUNCER_PAIRS) (hg : v &&& GOAL = 0)
    (hr : v &&& ROBOT = 0) (hb : v &&& BLOCK = 0)
    (hf : v &&& ((FLIPDIRS d).getD 0) = 0) :
    (v &&& andNot 255 (BOUNCER ||| d)) ∈ DIRECTIONS := by
  simp [DIRECTIONS, NORTH, EAST, SOUTH, WEST] at hd
  rcases hd with hd | hd | hd | hd <;> subst hd
  · exact (residual_dir v hv ⟨hp, hg, hr, hb⟩).1 hf
  · exact (residual_dir v hv ⟨hp, hg, hr, hb⟩).2.1 hf
  · exact (residual_dir v hv ⟨hp, hg, hr, hb⟩).2.2.1 hf
  · exact (residual_dir v hv ⟨hp, hg, hr, hb⟩).2.2.2 hf

theorem trace_total_aux (b : Board) (cells : List Nat)
    (hW : 1 ≤ b.width)
    (hlen : cells.length = b.width * b.height)
    (hvlt : ∀ i < cells.length, cellGet cells (i : Int) < 256)
    (hclean : ∀ i < cells.length, cellGet cells (i : Int) &&& BOUNCER ≠ 0 →
      (cellGet cells (i : Int) &&& 15) ∈ BOUNCER_PAIRS ∧
      cellGet cells (i : Int) &&& GOAL = 0) :
    ∀ (fuel : Nat) (p : Int) (d k : Nat), 0 ≤ p →
      p < (b.width : Int) * b.height → d ∈ DIRECTIONS → k ≤ b.max_bounces →
      (b.max_bounces + 1 - k) * (b.width * b.height + 1) +
        straight_dist b p d < fuel →
      (∃ q, trace b cells fuel p d k = TraceResult.ok q ∧ 0 ≤ q ∧
        q < (b.width : Int) * b.height) ∨
      trace b cells fuel p d k = TraceResult.bounceLoop := by
  intro fuel
  induction fuel with
  | zero => intro p d k _ _ _ _ hm; exact absurd hm (Nat.not_lt_zero _)
  | succ n ih =>
    intro p d k hp0 hplt hd hk hm
    have hFd := flipdirs_dir d hd
    rcases hF : FLIPDIRS d with _ | flipped
    · exact absurd hF hFd.1
    · rw [trace, hF]
      simp only
      by_cases h1 : neighbour b p d < 0 ∨
          board_has cells (neighbour b p d) (ROBOT ||| BLOCK ||| flipped) ≠ 0
      · rw [if_pos h1]
        exact Or.inl ⟨p, rfl, hp0, hplt⟩
      · rw [if_neg h1]
        push_neg at h1
        obtain ⟨hq0, hblock⟩ := h1
        have hqlt := neighbour_lt b d hW hplt hq0
        by_cases h2 : board_has cells (neighbour b p d) BOUNCER ≠ 0
        · rw [if_pos h2]
          by_cases h3 : k ≥ b.max_bounces
          · rw [if_pos h3]
            exact Or.inr rfl
          · rw [if_neg h3]
            have hqN : (neighbour b p d).toNat < cells.length := by
              rw [hlen]
              have hcast : ((b.width * b.height : Nat) : Int) =
                  (b.width : Int) * b.height := by
                push_cast
                ring
              omega
            have hqcast : ((neighbour b p d).toNat : Int) = neighbour b p d :=
              Int.toNat_of_nonneg hq0
            have hv256 : cellGet cells (neighbour b p d) < 256 := by
              have := hvlt (neighbour b p d).toNat hqN
              rwa [hqcast] at this
            have hcl := hclean (neighbour b p d).toNat hqN
            rw [hqcast] at hcl
            obtain ⟨hpair, hgoal⟩ := hcl h2
            have hsplit1 := and_or_zero_split _ _ _ hblock
            have hsplit2 := and_or_zero_split _ _ _ hsplit1.1
            have hfv : cellGet cells (neighbour b p d) &&&
                ((FLIPDIRS d).getD 0) = 0 := by
              rw [hF]
              exact hsplit1.2
            have hres : (board_has cells (neighbour b p d)
                (andNot 255 (BOUNCER ||| d))) ∈ DIRECTIONS :=
              residual_dir_mem _ d hv256 hd hpair hgoal hsplit2.1 hsplit2.2 hfv
            have hFnd := flipdirs_dir _ hres
            rcases hG : FLIPDIRS (board_has cells (neighbour b p d)
                (andNot 255 (BOUNCER ||| d))) with _ | nd
            · exact absurd hG hFnd.1
            · have hndmem : nd ∈ DIRECTIONS := by
                have h9 := hFnd.2
                rw [hG] at h9
                exact h9
              have hC := dist_le b (neighbour b p d) nd hq0 hqlt
              have heq1 : (b.max_bounces + 1 - k) * (b.width * b.height + 1) =
                  (b.max_bounces + 1 - (k + 1)) * (b.width * b.height + 1) +
                  (b.width * b.height + 1) := by
                have hA : b.max_bounces + 1 - k =
                    (b.max_bounces + 1 - (k + 1)) + 1 := by omega
                rw [hA, Nat.add_mul]
                omega
              exact ih _ nd (k + 1) hq0 hqlt hndmem (by omega) (by omega)
        · rw [if_neg h2]
          apply ih _ d k hq0 hqlt hd hk
          have hstep := dist_step b p d hW hd hp0 hplt hq0
          omega

/-- C10 counterexample: on a board where no bouncer cell carries a
wall-segment direction bit outside its own orientation pair (the goal marker
shares the bouncer's cell instead), a trace from a valid position raises the
unhandled `KeyError`, neither returning a cell nor raising `BounceLoop`. -/
theorem C10_counterexample :
    (∀ i, (h : i < exGoalBouncerCells.length) →
      exGoalBouncerCells.getD i 0 &&& BOUNCER ≠ 0 →
      (exGoalBouncerCells.getD i 0 &&& 15) ∈ BOUNCER_PAIRS) ∧
    trace exKeyBoard exGoalBouncerCells (trace_fuel exKeyBoard) 0 EAST 0 =
      TraceResult.keyError := by
  constructor
  · decide
  · decide

/-- C10 (amended): when additionally no bouncer cell carries the `GOAL`
marker, every `trace` call from a valid position with the standard fuel
terminates with either a valid cell index or the bounce-loop outcome; and a
bouncer cell carrying a stray wall-segment bit can make a trace entered from
a matching direction fail with the unhandled lookup error, as the residual
direction bits are no longer a single direction. -/
theorem C10_trace_totality (b : Board) (cells : List Nat)
    (hW : 1 ≤ b.width)
    (hlen : cells.length = b.width * b.height)
    (hvlt : ∀ i < cells.length, cellGet cells (i : Int) < 256)
    (hclean : ∀ i < cells.length, cellGet cells (i : Int) &&& BOUNCER ≠ 0 →
      (cellGet cells (i : Int) &&& 15) ∈ BOUNCER_PAIRS ∧
      cellGet cells (i : Int) &&& GOAL = 0) :
    (∀ (p : Int) (d k : Nat), 0 ≤ p → p < (b.width : Int) * b.height →
      d ∈ DIRECTIONS → k ≤ b.max_bounces →
      (∃ q, trace b cells (trace_fuel b) p d k = TraceResult.ok q ∧
        0 ≤ q ∧ q < (b.width : Int) * b.height) ∨
      trace b cells (trace_fuel b) p d k = TraceResult.bounceLoop) ∧
    trace exKeyBoard exWallBouncerCells (trace_fuel exKeyBoard) 1 WEST 0 =
      TraceResult.keyError := by
  constructor
  · intro p d k hp0 hplt hd hk
    apply trace_total_aux b cells hW hlen hvlt hclean (trace_fuel b) p d k hp0
      hplt hd hk
    have hC := dist_le b p d hp0 hplt
    have hmul : (b.max_bounces + 1 - k) * (b.width * b.height + 1) ≤
        (b.max_bounces + 1) * (b.width * b.height + 1) :=
      Nat.mul_le_mul_right _ (by omega)
    unfold trace_fuel
    omega
  · decide

/-- Witness for C10: on a clean 2x1 board with a robot marker on cell 0, the
eastward trace from cell 0 terminates normally. -/
theorem C10_trace_totality_witness :
    (∃ q, trace exBoard [ROBOT, GOAL] (trace_fuel exBoard) 0 EAST 0 =
      TraceResult.ok q ∧ 0 ≤ q ∧
      q < (exBoard.width : Int) * exBoard.height) ∨
    trace exBoard [ROBOT, GOAL] (trace_fuel exBoard) 0 EAST 0 =
      TraceResult.bounceLoop :=
  (C10_trace_totality exBoard [ROBOT, GOAL] (by decide) (by decide) (by decide)
    (by decide)).1 0 EAST 0 (by decide) (by decide) (by decide) (by decide)

theorem andNot_eq_self {x : Nat} (h : x &&& ROBOT = 0) : andNot x ROBOT = x := by
  unfold andNot
  rw [h]
  simp

theorem winsIn_mono (b : Board) :
    ∀ (n : Nat) (cells : List Nat) (robots : List Int),
      winsIn b cells robots n = true → winsIn b cells robots (n + 1) = true := by
  intro n
  induction n with
  | zero => intro cells robots h; exact Bool.noConfusion h
  | succ k ih =>
    intro cells robots h
    rw [winsIn_succ_iff] at h ⊢
    obtain ⟨m, hm, hp⟩ := h
    refine ⟨m, hm, ?_⟩
    rcases hp with hp | hp
    · exact Or.inl hp
    · exact Or.inr (ih _ _ hp)

theorem winsIn_false_of_le (b : Board) (cells : List Nat) (robots : List Int)
    {n r : Nat} (hle : n ≤ r) (h : winsIn b cells robots r = false) :
    winsIn b cells robots n = false := by
  by_contra hx
  have hx2 : winsIn b cells robots n = true := by
    cases hv : winsIn b cells robots n
    · exact absurd hv hx
    · rfl
  have : winsIn b cells robots r = true := by
    clear hx h
    induction hle with
    | refl => exact hx2
    | step h2 ih => exact winsIn_mono b _ _ _ ih
  rw [this] at h
  exact Bool.noConfusion h

theorem perm_set_set (l l2 : List Int) (h : l.Perm l2) (i j : Nat)
    (hi : i < l.length) (hj : j < l2.length) (hval : l[i] = l2[j]) (t : Int) :
    (l.set i t).Perm (l2.set j t) := by
  rw [List.perm_iff_count]
  intro x
  rw [List.count_set t x l i hi, List.count_set t x l2 j hj]
  rw [h.count_eq, hval]

theorem winsIn_perm_dir (b : Board) :
    ∀ (n : Nat) (cells : List Nat) (robots robots2 : List Int), robots.Perm robots2 →
      winsIn b cells robots n = true → winsIn b cells robots2 n = true := by
  intro n
  induction n with
  | zero => intro cells robots robots2 _ h; exact Bool.noConfusion h
  | succ k ih =>
    intro cells robots robots2 hperm h
    rw [winsIn_succ_iff] at h ⊢
    obtain ⟨m, hm, hp⟩ := h
    rw [possible_moves_mem] at hm
    obtain ⟨h1, h2, h3, h4, h5⟩ := hm
    have hstart_mem : robots.getD m.robot 0 ∈ robots2 := by
      rw [← hperm.mem_iff]
      rw [getD_eq_getElem _ _ _ h1]
      exact List.getElem_mem h1
    obtain ⟨j, hj, hval⟩ := List.getElem_of_mem hstart_mem
    have hgetDj : robots2.getD j 0 = robots.getD m.robot 0 := by
      rw [getD_eq_getElem _ _ _ hj, hval]
    have hm2 : (⟨j, m.direction, m.start_position, m.stop_position⟩ : Move) ∈
        possible_moves b cells robots2 := by
      rw [possible_moves_mem]
      refine ⟨hj, h2, ?_, ?_, ?_⟩
      · rw [hgetDj]
        exact h3
      · rw [hgetDj]
        exact h4
      · rw [hgetDj]
        exact h5
    refine ⟨_, hm2, ?_⟩
    have hcellseq : move_cells cells robots2 j m.stop_position =
        move_cells cells robots m.robot m.stop_position := by
      unfold move_cells
      rw [hgetDj]
    rcases hp with hp | hp
    · left
      rw [hcellseq]
      exact hp
    · right
      rw [hcellseq]
      apply ih _ _ _ ?_ hp
      unfold move_robots
      apply perm_set_set _ _ hperm _ _ h1 hj
      exact (hval.trans (getD_eq_getElem _ _ _ h1)).symm

theorem winsIn_perm (b : Board) (cells : List Nat) (n : Nat)
    (robots robots2 : List Int) (hperm : robots.Perm robots2) :
    winsIn b cells robots n = winsIn b cells robots2 n := by
  cases hv : winsIn b cells robots2 n
  · cases hw : winsIn b cells robots n
    · rfl
    · rw [winsIn_perm_dir b n cells robots robots2 hperm hw] at hv
      exact Bool.noConfusion hv
  · exact winsIn_perm_dir b n cells robots2 robots hperm.symm hv

theorem consistent_same_config (b : Board) (st st2 : SearchState)
    (hc : Consistent b st) (hc2 : Consistent b st2)
    (hstrip : stripRobots st.cells = stripRobots st2.cells)
    (hkey : robot_state st.robots = robot_state st2.robots) :
    st.cells = st2.cells ∧ st.robots.Perm st2.robots := by
  have hperm : st.robots.Perm st2.robots := by
    have h2 : (robot_state st.robots).Perm st2.robots := by
      rw [hkey]
      exact List.perm_insertionSort _ st2.robots
    exact (List.perm_insertionSort (· ≤ ·) st.robots).symm.trans h2
  refine ⟨?_, hperm⟩
  obtain ⟨hW, hH, hlen, hrange, hnodup, hiff, hlt, hclean⟩ := hc
  obtain ⟨hW2, hH2, hlen2, hrange2, hnodup2, hiff2, hlt2, hclean2⟩ := hc2
  have hlene : st.cells.length = st2.cells.length := by rw [hlen, hlen2]
  apply List.ext_getElem hlene
  intro i hi1 hi2
  have hs := congrArg (fun l => l.getD i 0) hstrip
  simp only at hs
  rw [stripRobots_getD _ _ hi1, stripRobots_getD _ _ hi2] at hs
  have hmem : ((i : Int) ∈ st.robots) ↔ ((i : Int) ∈ st2.robots) := hperm.mem_iff
  have hbit1 := hiff i hi1
  have hbit2 := hiff2 i hi2
  rw [cellGet_natCast] at hbit1 hbit2
  rw [← getD_eq_getElem _ _ 0 hi1, ← getD_eq_getElem _ _ 0 hi2]
  by_cases hm : (i : Int) ∈ st.robots
  · have hb1 : st.cells.getD i 0 &&& ROBOT ≠ 0 := hbit1.2 hm
    have hb2 : st2.cells.getD i 0 &&& ROBOT ≠ 0 := hbit2.2 (hmem.1 hm)
    rw [← or_andNot_ROBOT hb1, ← or_andNot_ROBOT hb2, hs]
  · have hb1 : st.cells.getD i 0 &&& ROBOT = 0 := by
      by_contra hx
      exact hm (hbit1.1 hx)
    have hb2 : st2.cells.getD i 0 &&& ROBOT = 0 := by
      by_contra hx
      exact hm (hmem.2 (hbit2.1 hx))
    rw [← andNot_eq_self hb1, ← andNot_eq_self hb2, hs]

theorem search_go_sound (b : Board) (sub : SearchState → Bool × SearchState)
    (deep : Bool) (key : List Int) (r rsub : Nat)
    (HsubF : ∀ st, Consistent b st → (sub st).1 = false →
      (sub st).2.cells = st.cells ∧ (sub st).2.robots = st.robots)
    (HsubS : ∀ st, Consistent b st →
      DSound b (stripRobots st.cells) st.despair →
      (sub st).1 = false →
      winsIn b st.cells st.robots rsub = false ∧
      DSound b (stripRobots st.cells) (sub st).2.despair)
    (hrs : rsub + 1 = r)
    (hdeepF : deep = false → rsub = 0) :
    ∀ (ms : List Move) (st : SearchState), Consistent b st →
      DSound b (stripRobots st.cells) st.despair →
      key = robot_state st.robots →
      (∀ m ∈ ms, m ∈ possible_moves b st.cells st.robots) →
      (∀ m ∈ possible_moves b st.cells st.robots, m ∉ ms →
        goal_reached b (move_cells st.cells st.robots m.robot m.stop_position) =
          false ∧
        winsIn b (move_cells st.cells st.robots m.robot m.stop_position)
          (move_robots st.robots m.robot m.stop_position) rsub = false) →
      (search_go b sub deep key r ms st).1 = false →
      winsIn b st.cells st.robots r = false ∧
      DSound b (stripRobots st.cells) (search_go b sub deep key r ms st).2.despair := by
  subst hrs
  intro ms
  induction ms with
  | nil =>
    intro st hc hd0 hkey hms hdone h
    have hwr : winsIn b st.cells st.robots (rsub + 1) = false := by
      cases hv : winsIn b st.cells st.robots (rsub + 1)
      · rfl
      · rw [winsIn_succ_iff] at hv
        obtain ⟨m, hm, hp⟩ := hv
        have hfacts := hdone m hm (List.not_mem_nil m)
        rcases hp with hp | hp
        · rw [hfacts.1] at hp
          exact Bool.noConfusion hp
        · rw [hfacts.2] at hp
          exact Bool.noConfusion hp
    refine ⟨hwr, ?_⟩
    show DSound b (stripRobots st.cells) (dSet st.despair key (rsub + 1))
    intro st3 hc3 hstrip3 n hn
    by_cases hk3 : robot_state st3.robots = key
    · rw [hk3, dGet_dSet_self] at hn
      obtain ⟨hcells3, hperm3⟩ := consistent_same_config b st3 st hc3 hc
        hstrip3 (by rw [hk3, hkey])
      rw [hcells3]
      rw [winsIn_perm b st.cells n st3.robots st.robots hperm3]
      exact winsIn_false_of_le b _ _ hn hwr
    · rw [dGet_dSet_ne _ _ _ _ hk3] at hn
      exact hd0 st3 hc3 hstrip3 n hn
  | cons m rest ih =>
    intro st hc hd0 hkey hms hdone h
    have hm := hms m (List.mem_cons_self m rest)
    have hrt := execute_restore b st hc m hm
    have hxc := execute_consistent b st hc m hm
    have hcons1 : Consistent b (pushMove m (Move.execute m st)) :=
      consistent_congr b _ _ rfl rfl hxc.1
    simp only [search_go] at h ⊢
    by_cases hg : goal_reached b (pushMove m (Move.execute m st)).cells = true
    · rw [if_pos hg] at h
      exact Bool.noConfusion h
    · rw [if_neg hg] at h ⊢
      have hgf : goal_reached b
          (move_cells st.cells st.robots m.robot m.stop_position) = false := by
        cases hv : goal_reached b
            (move_cells st.cells st.robots m.robot m.stop_position)
        · rfl
        · exact absurd hv hg
      by_cases hd : deep = true
      · rw [if_pos hd] at h ⊢
        rcases hsub1 : sub (pushMove m (Move.execute m st)) with ⟨bb, st2⟩
        rw [hsub1] at h
        cases bb
        · have hd1 : DSound b (stripRobots (Move.execute m st).cells)
              st.despair := by
            rw [hxc.2]
            exact hd0
          have hws := HsubS (pushMove m (Move.execute m st)) hcons1 hd1
            (by rw [hsub1])
          rw [hsub1] at hws
          have hwm : winsIn b
              (move_cells st.cells st.robots m.robot m.stop_position)
              (move_robots st.robots m.robot m.stop_position) rsub = false :=
            hws.1
          have hsub2 := HsubF _ hcons1 (by rw [hsub1] :
            (sub (pushMove m (Move.execute m st))).1 = false)
          rw [hsub1] at hsub2
          obtain ⟨hsub2c, hsub2r⟩ := hsub2
          have hCc : (Move.undo m (popMove st2)).cells = st.cells := by
            calc (Move.undo m (popMove st2)).cells
                = move_cells st2.cells st2.robots m.robot m.start_position := rfl
              _ = move_cells (pushMove m (Move.execute m st)).cells
                  (pushMove m (Move.execute m st)).robots m.robot
                  m.start_position := by rw [hsub2c, hsub2r]
              _ = (Move.undo m (Move.execute m st)).cells := rfl
              _ = st.cells := by rw [hrt]
          have hCr : (Move.undo m (popMove st2)).robots = st.robots := by
            calc (Move.undo m (popMove st2)).robots
                = move_robots st2.robots m.robot m.start_position := rfl
              _ = move_robots (pushMove m (Move.execute m st)).robots m.robot
                  m.start_position := by rw [hsub2r]
              _ = (Move.undo m (Move.execute m st)).robots := rfl
              _ = st.robots := by rw [hrt]
          have hcons2 : Consistent b (Move.undo m (popMove st2)) :=
            consistent_congr b st _ hCc hCr hc
          have hd2 : DSound b (stripRobots (Move.undo m (popMove st2)).cells)
              (Move.undo m (popMove st2)).despair := by
            rw [hCc]
            show DSound b (stripRobots st.cells) st2.despair
            have hws2 : DSound b (stripRobots (Move.execute m st).cells)
              st2.despair := hws.2
            rw [hxc.2] at hws2
            exact hws2
          have hkey2 : key = robot_state (Move.undo m (popMove st2)).robots := by
            rw [hCr]
            exact hkey
          have hms2 : ∀ m2 ∈ rest, m2 ∈ possible_moves b
              (Move.undo m (popMove st2)).cells
              (Move.undo m (popMove st2)).robots := by
            intro m2 hm2
            rw [hCc, hCr]
            exact hms m2 (List.mem_cons_of_mem m hm2)
          have hdone2 : ∀ m2 ∈ possible_moves b
              (Move.undo m (popMove st2)).cells
              (Move.undo m (popMove st2)).robots, m2 ∉ rest →
              goal_reached b (move_cells (Move.undo m (popMove st2)).cells
                (Move.undo m (popMove st2)).robots m2.robot m2.stop_position) =
                false ∧
              winsIn b (move_cells (Move.undo m (popMove st2)).cells
                  (Move.undo m (popMove st2)).robots m2.robot m2.stop_position)
                (move_robots (Move.undo m (popMove st2)).robots m2.robot
                  m2.stop_position) rsub = false := by
            rw [hCc, hCr]
            intro m2 hmem2 hnotin2
            by_cases hem : m2 = m
            · subst hem
              exact ⟨hgf, hwm⟩
            · apply hdone m2 hmem2
              intro hin
              rcases List.mem_cons.1 hin with hx | hx
              · exact hem hx
              · exact hnotin2 hx
          obtain ⟨hwr, hds⟩ := ih _ hcons2 hd2 hkey2 hms2 hdone2 h
          refine ⟨?_, ?_⟩
          · rw [hCc, hCr] at hwr
            exact hwr
          · rw [hCc] at hds
            exact hds
        · exact Bool.noConfusion h
      · rw [if_neg hd] at h ⊢
        rw [pop_push] at h ⊢
        rw [hrt] at h ⊢
        have hdf : deep = false := by
          cases deep
          · rfl
          · exact absurd rfl hd
        have hr0 : rsub = 0 := hdeepF hdf
        have hdone2 : ∀ m2 ∈ possible_moves b st.cells st.robots, m2 ∉ rest →
            goal_reached b (move_cells st.cells st.robots m2.robot
              m2.stop_position) = false ∧
            winsIn b (move_cells st.cells st.robots m2.robot m2.stop_position)
              (move_robots st.robots m2.robot m2.stop_position) rsub = false := by
          intro m2 hmem2 hnotin2
          by_cases hem : m2 = m
          · subst hem
            refine ⟨hgf, ?_⟩
            rw [hr0]
            rfl
          · apply hdone m2 hmem2
            intro hin
            rcases List.mem_cons.1 hin with hx | hx
            · exact hem hx
            · exact hnotin2 hx
        exact ih st hc hd0 hkey
          (fun m2 hm2 => hms m2 (List.mem_cons_of_mem m hm2)) hdone2 h

theorem search_rec_sound (b : Board) :
    ∀ (r : Nat) (st : SearchState), Consistent b st →
      DSound b (stripRobots st.cells) st.despair →
      (search_rec b r st).1 = false →
      winsIn b st.cells st.robots r = false ∧
      DSound b (stripRobots st.cells) (search_rec b r st).2.despair := by
  intro r
  induction r with
  | zero =>
    intro st _ hd _
    exact ⟨rfl, hd⟩
  | succ n ih =>
    intro st hc hd h
    simp only [search_rec] at h ⊢
    by_cases ht : dGet st.despair (robot_state st.robots) < n + 1
    · rw [if_pos ht] at h ⊢
      have hdeepF : decide (1 < n + 1) = false → n = 0 := by
        intro hx
        have h2 := of_decide_eq_false hx
        omega
      exact search_go_sound b (search_rec b n) (decide (1 < n + 1))
        (robot_state st.robots) (n + 1) n
        (fun st2 hc2 => search_rec_fail_frame b n st2 hc2)
        (fun st2 hc2 hd2 => ih st2 hc2 hd2) rfl hdeepF
        (possible_moves b st.cells st.robots) st hc hd rfl
        (fun m2 hm2 => hm2) (fun m2 hm2 hnot => absurd hm2 hnot) h
    · rw [if_neg ht]
      have hw : winsIn b st.cells st.robots (n + 1) = false :=
        hd st hc rfl (n + 1) (by omega)
      exact ⟨hw, hd⟩

theorem search_loop_finds (b : Board) :
    ∀ (bs rest : List Nat) (st : SearchState) (L : Nat),
      Consistent b st →
      DSound b (stripRobots st.cells) st.despair →
      st.moves = [] →
      winsIn b st.cells st.robots L = true →
      (∀ k < L, winsIn b st.cells st.robots k = false) →
      (∀ β ∈ bs, β < L) →
      ∃ (ms : List Move) (stf : SearchState),
        search_loop b (bs ++ L :: rest) st = (some (L, ms), stf) ∧
        ms.length = L := by
  intro bs
  induction bs with
  | nil =>
    intro rest st L hc hd hmv hwin hmin _
    show ∃ ms stf, search_loop b (L :: rest) st = (some (L, ms), stf) ∧
      ms.length = L
    simp only [search_loop]
    rcases hrec : search_rec b L st with ⟨bb, st1⟩
    cases bb
    · have hsnd := search_rec_sound b L st hc hd (by rw [hrec])
      rw [hsnd.1] at hwin
      exact Bool.noConfusion hwin
    · obtain ⟨suffix, hmoves, hcl, hrb, hge, hle, hwinlen⟩ :=
        search_rec_succ_replay b L st hc (by rw [hrec])
      have hmoves2 : st1.moves = st.moves ++ suffix := by
        rw [hrec] at hmoves
        exact hmoves
      have hlen : suffix.length = L := by
        by_contra hne
        have hlt : suffix.length < L := by omega
        have hmk := hmin suffix.length hlt
        rw [hmk] at hwinlen
        exact Bool.noConfusion hwinlen
      refine ⟨st1.moves, st1, rfl, ?_⟩
      rw [hmoves2, hmv, List.nil_append, hlen]
  | cons β bs2 ih =>
    intro rest st L hc hd hmv hwin hmin hbs
    show ∃ ms stf, search_loop b (β :: (bs2 ++ L :: rest)) st =
      (some (L, ms), stf) ∧ ms.length = L
    simp only [search_loop]
    rcases hrec : search_rec b β st with ⟨bb, st1⟩
    cases bb
    · have hfail : (search_rec b β st).1 = false := by rw [hrec]
      have hsnd := search_rec_sound b β st hc hd hfail
      have hfrm := search_rec_fail_frame b β st hc hfail
      have hfmv := search_rec_fail_moves b β st hfail
      rw [hrec] at hfrm hfmv
      have hc1 : st1.cells = st.cells := hfrm.1
      have hr1 : st1.robots = st.robots := hfrm.2
      have hmv1 : st1.moves = [] := by
        have h3 : st1.moves = st.moves := hfmv
        rw [h3, hmv]
      have hcons1 : Consistent b st1 := consistent_congr b st st1 hc1 hr1 hc
      have hd1 : DSound b (stripRobots st1.cells) st1.despair := by
        rw [hc1]
        have h2 : DSound b (stripRobots st.cells)
            (search_rec b β st).2.despair := hsnd.2
        rw [hrec] at h2
        exact h2
      have hwin1 : winsIn b st1.cells st1.robots L = true := by
        rw [hc1, hr1]
        exact hwin
      have hmin1 : ∀ k < L, winsIn b st1.cells st1.robots k = false := by
        intro k hk
        rw [hc1, hr1]
        exact hmin k hk
      exact ih rest st1 L hcons1 hd1 hmv1 hwin1 hmin1
        (fun β2 hβ2 => hbs β2 (List.mem_cons_of_mem β hβ2))
    · obtain ⟨suffix, hmoves, hcl, hrb, hge, hle, hwinlen⟩ :=
        search_rec_succ_replay b β st hc (by rw [hrec])
      have hβL : β < L := hbs β (List.mem_cons_self β bs2)
      have hlt : suffix.length < L := by omega
      have hmk := hmin suffix.length hlt
      rw [hmk] at hwinlen
      exact Bool.noConfusion hwinlen

/-- C1: on a consistent configuration whose shortest winning move sequence
(in the program's own move generation) has length `L` with
`min_moves ≤ L ≤ max_moves`, `Board.search` succeeds first at budget `L` and
reports a move list of exactly `L` moves; moreover the despair table never
prunes a configuration reached with a remaining budget strictly larger than
the recorded depth: `search_rec` then always enters the move loop. -/
theorem C1_iddfs_shortest (b : Board) (st : SearchState) (L : Nat)
    (hc : Consistent b st)
    (hwin : winsIn b st.cells st.robots L = true)
    (hmin : ∀ k < L, winsIn b st.cells st.robots k = false)
    (hlo : b.min_moves ≤ L) (hhi : L ≤ b.max_moves) :
    (∃ (ms : List Move) (stf : SearchState),
      search b st = (some (L, ms), stf) ∧ ms.length = L) ∧
    (∀ (st2 : SearchState) (r : Nat),
      dGet st2.despair (robot_state st2.robots) < r →
      search_rec b r st2 =
        search_go b (search_rec b (r - 1)) (decide (1 < r))
          (robot_state st2.robots) r
          (possible_moves b st2.cells st2.robots) st2) := by
  constructor
  · have hc0 : Consistent b { st with moves := [], despair := [] } :=
      consistent_congr b st _ rfl rfl hc
    have hd0 : DSound b
        (stripRobots ({ st with moves := [], despair := [] } : SearchState).cells)
        ({ st with moves := [], despair := [] } : SearchState).despair := by
      intro st3 hc3 hstrip n hn
      have hz : dGet ([] : List (List Int × Nat)) (robot_state st3.robots) = 0 :=
        rfl
      have hn0 : n = 0 := by
        have hn2 : n ≤ dGet ([] : List (List Int × Nat))
          (robot_state st3.robots) := hn
        omega
      rw [hn0]
      rfl
    have h1 := List.range'_append b.min_moves (L - b.min_moves)
      ((b.max_moves - L) + 1) 1
    have h2 : b.min_moves + 1 * (L - b.min_moves) = L := by omega
    have h3 : (b.max_moves - L) + 1 + (L - b.min_moves) =
      b.max_moves + 1 - b.min_moves := by omega
    rw [h2, h3] at h1
    have hsplit : List.range' b.min_moves (b.max_moves + 1 - b.min_moves) =
        List.range' b.min_moves (L - b.min_moves) ++
          L :: List.range' (L + 1) (b.max_moves - L) := by
      rw [← h1, List.range'_succ]
    show ∃ ms stf,
      search_loop b (List.range' b.min_moves (b.max_moves + 1 - b.min_moves))
        { st with moves := [], despair := [] } = (some (L, ms), stf) ∧
      ms.length = L
    rw [hsplit]
    apply search_loop_finds b _ _ _ L hc0 hd0 rfl hwin hmin
    intro β hβ
    have hmem := List.mem_range'_1.1 hβ
    omega
  · intro st2 r hlt
    cases r with
    | zero => omega
    | succ n =>
      show search_rec b (n + 1) st2 = _
      simp only [search_rec]
      rw [if_pos hlt]
      rfl

theorem C1_iddfs_shortest_witness :
    ∃ (ms : List Move) (stf : SearchState),
      search exBoard exState = (some (1, ms), stf) ∧ ms.length = 1 :=
  (C1_iddfs_shortest exBoard exState 1 (by decide) (by decide)
    (by decide) (by decide) (by decide)).1
